import Mathlib

/-!
Verification development for the hypocrite directive-parsing and
template-rendering engine.  The definitions below are shallow embeddings of
the Python sources (`location.py`, `linelist.py`, `perfile.py`,
`hypofile.py`, `template.py`); theorems about the claims follow at the end
of the file.
-/

namespace Hypocrite

/-! ### location.py -/

/-- Model of `location.Coordinate`: an immutable (path, line-number) pair. -/
structure Coordinate where
  path : String
  lno : Int
  deriving DecidableEq, Repr

/-- Model of `Coordinate.__str__`: `"path:lno"`, used in error messages. -/
def Coordinate.str (c : Coordinate) : String :=
  c.path ++ ":" ++ toString c.lno

/-- Model of `Coordinate.__add__` with an integer offset. -/
def Coordinate.add (c : Coordinate) (n : Int) : Coordinate :=
  ⟨c.path, c.lno + n⟩

/-- Model of the `Coordinate.line` property: a C preprocessor `#line`
directive naming the coordinate's own line number and path. -/
def Coordinate.line (c : Coordinate) : String :=
  "#line " ++ toString c.lno ++ " \"" ++ c.path ++ "\""

/-- Model of `location.CoordinateRange`: path plus start/end line numbers. -/
structure CoordinateRange where
  path : String
  start : Int
  end_ : Int
  deriving DecidableEq, Repr

/-- Model of `CoordinateRange.__str__`: `"path:start"` when the range covers
one line, `"path:start-end"` otherwise. -/
def CoordinateRange.str (r : CoordinateRange) : String :=
  if r.start = r.end_ then r.path ++ ":" ++ toString r.start
  else r.path ++ ":" ++ toString r.start ++ "-" ++ toString r.end_

/-- Model of `Coordinate.__sub__` with an integer offset. -/
def Coordinate.subInt (c : Coordinate) (n : Int) : Coordinate :=
  ⟨c.path, c.lno - n⟩

/-- Model of `Coordinate.__sub__` with a `Coordinate` argument.  `none`
models the `NotImplemented` return (a `TypeError` at the call site) taken
when the two paths differ; otherwise `start, end = other.lno, self.lno`
are swapped into order. -/
def Coordinate.subCoord (self other : Coordinate) : Option CoordinateRange :=
  if self.path = other.path then
    let s := other.lno
    let e := self.lno
    if e < s then some ⟨self.path, e, s⟩ else some ⟨self.path, s, e⟩
  else none

/-! ### linelist.py -/

/-- Model of the `_Entry` namedtuple of `linelist.py`. -/
structure Entry where
  coord : Option Coordinate
  text : String
  deriving DecidableEq, Repr

/-- Model of `linelist.LineList`: the ordered `_entries` list. -/
abbrev LineList := List Entry

/-- Model of the entry comprehension shared by `LineList.__init__` and
`LineList.extend`: line `i` receives coordinate `coord + i` when a start
coordinate is given and `None` otherwise. -/
def LineList.entriesFrom (lines : List String) (coord : Option Coordinate) : LineList :=
  lines.enum.map (fun p => ⟨coord.map (fun c => c.add (p.1 : Int)), p.2⟩)

/-- Model of `LineList.append`. -/
def LineList.append (ll : LineList) (line : String) (coord : Option Coordinate) : LineList :=
  ll ++ [⟨coord, line⟩]

/-- Model of `LineList.extend`. -/
def LineList.extend (ll : LineList) (lines : List String) (coord : Option Coordinate) : LineList :=
  ll ++ LineList.entriesFrom lines coord

/-- Model of `LineList.__add__` / `__iadd__` with another `LineList`
(the entry lists are concatenated). -/
def LineList.addLineList (ll other : LineList) : LineList :=
  ll ++ other

/-- Model of `LineList.__add__` / `__iadd__` with a bare list of strings
(delegates to `extend` with no coordinate). -/
def LineList.addStrings (ll : LineList) (other : List String) : LineList :=
  LineList.extend ll other none

/-- The `#line` directive printed by the `coord is None` branch of
`LineList.output`, resetting numbering to the current output line. -/
def resetDirective (line : Int) (fname : String) : String :=
  "#line " ++ toString line ++ " \"" ++ fname ++ "\""

/-- Model of the loop in `LineList.output`.  Arguments carry the running
output line number (`line`, starting at 1) and the last coordinate seen
(`last`).  Each element of the returned list is one printed output line.
In the source, the located-entry branch prints `coord.line` (the full
`#line` directive provided by the `Coordinate.line` property) whenever
`last is None or last + 1 != coord`. -/
def outputAux (fname : String) : Int → Option Coordinate → LineList → List String
  | _, _, [] => []
  | line, last, ⟨none, text⟩ :: rest =>
    if last.isSome then
      resetDirective (line + 1) fname :: text :: outputAux fname (line + 1 + 1) none rest
    else
      text :: outputAux fname (line + 1) none rest
  | line, last, ⟨some c, text⟩ :: rest =>
    match last with
    | none => c.line :: text :: outputAux fname (line + 1 + 1) (some c) rest
    | some l =>
      if l.add 1 ≠ c then
        c.line :: text :: outputAux fname (line + 1 + 1) (some c) rest
      else
        text :: outputAux fname (line + 1) (some c) rest

/-- Model of `LineList.output`: the list of printed lines (`fname` is the
basename computed by the source from the `path` argument). -/
def LineList.output (ll : LineList) (fname : String) : List String :=
  outputAux fname 1 none ll

/-- The same recursion as `outputAux`, but grouping the lines printed for
each entry into one block: a block is the entry's text, preceded by a
`#line` directive when one is emitted. -/
def outputBlocks (fname : String) : Int → Option Coordinate → LineList → List (List String)
  | _, _, [] => []
  | line, last, ⟨none, text⟩ :: rest =>
    if last.isSome then
      [resetDirective (line + 1) fname, text] :: outputBlocks fname (line + 1 + 1) none rest
    else
      [text] :: outputBlocks fname (line + 1) none rest
  | line, last, ⟨some c, text⟩ :: rest =>
    match last with
    | none => [c.line, text] :: outputBlocks fname (line + 1 + 1) (some c) rest
    | some l =>
      if l.add 1 ≠ c then
        [c.line, text] :: outputBlocks fname (line + 1 + 1) (some c) rest
      else
        [text] :: outputBlocks fname (line + 1) (some c) rest

/-- The contiguity-break condition of the claim, stated on the previous
entry's coordinate (`none` when the entry is the first) and the current
entry's coordinate: a fresh `#line` is expected exactly when this holds. -/
def breaksContiguity (prev cur : Option Coordinate) : Bool :=
  match prev, cur with
  | none, none => false
  | none, some _ => true
  | some _, none => true
  | some l, some c => !(l.path == c.path && l.lno + 1 == c.lno)

/-- The previous-entry coordinates of a line list, starting from a given
last-seen coordinate: element `i` is the coordinate of entry `i - 1`
(`last` for the first entry). -/
def prevsFrom (last : Option Coordinate) : LineList → List (Option Coordinate)
  | [] => []
  | e :: rest => last :: prevsFrom e.coord rest

/-- Entries all located on path `p` with strictly contiguous line numbers
starting at `n`. -/
def ContiguousFrom (p : String) (n : Int) : LineList → Prop
  | [] => True
  | e :: rest => e.coord = some ⟨p, n⟩ ∧ ContiguousFrom p (n + 1) rest

/-- Operations on a `LineList` that add entries, for the append-only
invariant: `append`, `extend`, concatenation with another `LineList`, and
concatenation with a bare list of strings (`+` and `+=` produce the same
entry list in the model). -/
inductive LLOp where
  | app (line : String) (coord : Option Coordinate)
  | ext (lines : List String) (coord : Option Coordinate)
  | addLL (other : LineList)
  | addList (other : List String)

/-- The entries an operation adds. -/
def LLOp.entries : LLOp → LineList
  | .app line coord => [⟨coord, line⟩]
  | .ext lines coord => LineList.entriesFrom lines coord
  | .addLL other => other
  | .addList other => LineList.entriesFrom other none

/-- Apply one operation to a `LineList`. -/
def applyOp (ll : LineList) : LLOp → LineList
  | .app line coord => LineList.append ll line coord
  | .ext lines coord => LineList.extend ll lines coord
  | .addLL other => LineList.addLineList ll other
  | .addList other => LineList.addStrings ll other

/-- Apply a sequence of operations in order. -/
def applyOps (ll : LineList) (ops : List LLOp) : LineList :=
  ops.foldl applyOp ll

/-! ### perfile.py -/

/-- The Python exception kinds the modeled code can raise.  Parse and
validation failures are `ParseException` instances carrying a message;
the remaining kinds model built-in exceptions escaping the code. -/
inductive PyErr where
  | parseExc (msg : String)
  | keyError (key : String)
  | indexError
  | typeError
  | attributeError (attr : String)
  deriving DecidableEq, Repr

/-- Whether an error is of the `ParseException` kind (the single kind the
parser is supposed to surface). -/
def PyErr.isParseExc : PyErr → Bool
  | .parseExc _ => true
  | _ => false

/-- Model of the token type constants `TOK_WORD`, `TOK_CHAR`, `TOK_STR`. -/
inductive TokType where
  | word
  | char
  | str
  deriving DecidableEq, Repr

/-- Model of the `Token` namedtuple. -/
structure Token where
  type_ : TokType
  value : String
  deriving DecidableEq, Repr

/-- Python `str.isspace` on its ASCII fragment (the only characters the
directive grammars use). -/
def isPySpace (c : Char) : Bool :=
  c == ' ' || c == '\t' || c == '\n' || c == '\r' || c == '\x0b' || c == '\x0c'

/-- Model of the character loop of `PerFileParser._tokenize`: `state` is
`None` / `TOK_STR` / `TOK_WORD` and `buf` the pending token text.  Python
`isalpha` / `isalnum` are modeled on their ASCII fragments. -/
def tokenizeAux (coord : Coordinate) :
    Option TokType → String → List Char → Except PyErr (List Token)
  | none, _, [] => .ok []
  | some .str, _, [] =>
    .error (.parseExc ("Unclosed string encountered at " ++ coord.str))
  | some .word, buf, [] => .ok [⟨.word, buf⟩]
  | some .char, buf, [] => .ok [⟨.char, buf⟩]
  | none, buf, c :: cs =>
    if isPySpace c then tokenizeAux coord none buf cs
    else if c = '"' then tokenizeAux coord (some .str) "" cs
    else if c = '_' ∨ c.isAlpha then
      tokenizeAux coord (some .word) (String.singleton c) cs
    else do
      let rest ← tokenizeAux coord none buf cs
      .ok (⟨.char, String.singleton c⟩ :: rest)
  | some .str, buf, c :: cs =>
    if c = '"' then do
      let rest ← tokenizeAux coord none buf cs
      .ok (⟨.str, buf⟩ :: rest)
    else tokenizeAux coord (some .str) (buf.push c) cs
  | some .word, buf, c :: cs =>
    -- the source asserts the remaining state is `TOK_WORD` and yields
    -- `Token(state, buf)` for the pending token
    if isPySpace c then do
      let rest ← tokenizeAux coord none buf cs
      .ok (⟨.word, buf⟩ :: rest)
    else if c = '_' ∨ c.isAlphanum then
      tokenizeAux coord (some .word) (buf.push c) cs
    else if c = '"' then do
      let rest ← tokenizeAux coord (some .str) "" cs
      .ok (⟨.word, buf⟩ :: rest)
    else do
      let rest ← tokenizeAux coord none buf cs
      .ok (⟨.word, buf⟩ :: ⟨.char, String.singleton c⟩ :: rest)
  | some .char, buf, c :: cs =>
    if isPySpace c then do
      let rest ← tokenizeAux coord none buf cs
      .ok (⟨.char, buf⟩ :: rest)
    else if c = '_' ∨ c.isAlphanum then
      tokenizeAux coord (some .word) (buf.push c) cs
    else if c = '"' then do
      let rest ← tokenizeAux coord (some .str) "" cs
      .ok (⟨.char, buf⟩ :: rest)
    else do
      let rest ← tokenizeAux coord none buf cs
      .ok (⟨.char, buf⟩ :: ⟨.char, String.singleton c⟩ :: rest)

/-- Model of `PerFileParser._tokenize` on a directive's text (without the
leading `%`). -/
def tokenize (text : String) (coord : Coordinate) : Except PyErr (List Token) :=
  tokenizeAux coord none "" text.toList

/-- Model of the loop of `split_toks` with `include_delim=True`: each yield
is a (stack, delimiter) pair, the final one carrying no delimiter. -/
def splitToksAux (delims : List Token) :
    List Token → List Token → List (List Token × Option Token)
  | stack, [] => [(stack, none)]
  | stack, current :: rest =>
    if current ∈ delims then (stack, some current) :: splitToksAux delims [] rest
    else splitToksAux delims (stack ++ [current]) rest

/-- Model of `split_toks` with `include_delim=True`. -/
def splitToksD (toks delims : List Token) : List (List Token × Option Token) :=
  splitToksAux delims [] toks

/-- Model of `split_toks` with the default `include_delim=False`: the same
loop, yielding the stacks alone. -/
def split_toks (toks delims : List Token) : List (List Token) :=
  (splitToksD toks delims).map Prod.fst

/-- Interleave the stacks yielded by `split_toks` with the delimiter
occurrences, in order (the reconstruction the claim describes). -/
def interleave : List (List Token) → List Token → List Token
  | s :: ss, d :: ds => s ++ d :: interleave ss ds
  | s :: _, [] => s
  | [], _ => []

/-! ### hypofile.py -/

/-- Model of the `HypoMockArg` namedtuple. -/
structure HypoMockArg where
  type_ : String
  name : String
  deriving DecidableEq, Repr

/-- Model of the `HypoFixtureInjection` namedtuple. -/
structure HypoFixtureInjection where
  fixture : String
  inject : Bool
  deriving DecidableEq, Repr

/-- Model of `Preamble` (a plain record; `render` is template glue). -/
structure Preamble where
  coord_range : CoordinateRange
  code : LineList
  deriving DecidableEq, Repr

/-- Model of `HypocriteTest` (a plain record). -/
structure HypocriteTest where
  coord_range : CoordinateRange
  name : String
  code : LineList
  fixtures : List HypoFixtureInjection
  deriving DecidableEq, Repr

/-- Model of `HypocriteMock` (a plain record). -/
structure HypocriteMock where
  coord_range : CoordinateRange
  name : String
  return_type : String
  args : List HypoMockArg
  deriving DecidableEq, Repr

/-- Model of `Fixture` (a plain record; `return_type` is `None` for a
fixture returning nothing, `teardown` is `None` without a cleanup body). -/
structure Fixture where
  coord_range : CoordinateRange
  name : String
  return_type : Option String
  code : LineList
  teardown : Option LineList
  deriving DecidableEq, Repr

/-- Python-dict insert-or-overwrite on an association list: an existing key
keeps its position, a new key is appended (CPython dict / `OrderedDict`
`__setitem__` semantics). -/
def dictSet {α : Type} (m : List (String × α)) (k : String) (v : α) :
    List (String × α) :=
  if m.any (fun p => p.1 == k) then
    m.map (fun p => if p.1 == k then (k, v) else p)
  else m ++ [(k, v)]

/-- Python-dict lookup on an association list. -/
def dictGet {α : Type} (m : List (String × α)) (k : String) : Option α :=
  (m.find? (fun p => p.1 == k)).map Prod.snd

/-- Model of `_extract_type`: wraps `split_toks` and splits each stack into
(type tokens, name token, delimiter); `stack[:-1]` and `stack[-1]` become
`dropLast` and `getLast?`. -/
def extract_type (toks delims : List Token) :
    List (List Token × Option Token × Option Token) :=
  (splitToksD toks delims).map (fun p => (p.1.dropLast, p.1.getLast?, p.2))

/-- Model of the loop of `_make_type`: `last` is `last_tok` and `type_` the
accumulated word list.  Two adjacent CHAR tokens (only `*` reaches here)
are joined into the last accumulated word without a space; anything else
appends a new word.  When the join branch is taken a previous token exists,
so the accumulator is non-empty and `getLast?.getD ""` never falls back. -/
def make_typeAux (directive : String) (coord : Coordinate) :
    Option Token → List String → List Token → Except PyErr (List String)
  | _, type_, [] => .ok type_
  | last, type_, tok :: rest =>
    if tok.type_ ≠ .word ∧ tok ≠ ⟨.char, "*"⟩ then
      .error (.parseExc ("Invalid %" ++ directive ++ " directive at " ++ coord.str))
    else
      let joinChars : Bool :=
        match last with
        | some l => tok.type_ == .char && l.type_ == .char
        | none => false
      if joinChars then
        make_typeAux directive coord (some tok)
          (type_.dropLast ++ [type_.getLast?.getD "" ++ tok.value]) rest
      else
        make_typeAux directive coord (some tok) (type_ ++ [tok.value]) rest

/-- Model of `_make_type`: the space-join of the accumulated words. -/
def make_type (toks : List Token) (directive : String) (coord : Coordinate) :
    Except PyErr String := do
  let type_ ← make_typeAux directive coord none [] toks
  .ok (String.intercalate " " type_)

/-- The delimiter set `_mock_type_delims`. -/
def _mock_type_delims : List Token :=
  [⟨.char, "("⟩, ⟨.char, ","⟩, ⟨.char, ")"⟩]

/-- Model of the argument loop of the `mock` directive handler;
`endExpected` mirrors `end_expected`. -/
def mockArgsLoop (start_coord : Coordinate) :
    Bool → List HypoMockArg → List (List Token × Option Token × Option Token) →
    Except PyErr (List HypoMockArg)
  | _, args, [] => .ok args
  | endExpected, args, (type_, name, delim) :: rest =>
    if endExpected then
      if type_ ≠ [] ∨ name ≠ none ∨ delim ≠ none then
        .error (.parseExc ("Unexpected tokens after %mock directive at " ++ start_coord.str))
      else
        mockArgsLoop start_coord endExpected args rest
    else if delim = none then
      .error (.parseExc ("Premature end of arguments in %mock directive at " ++ start_coord.str))
    else if delim = some ⟨.char, ")"⟩ ∧ args = [] ∧ type_ = [] ∧
        (name = none ∨ name = some ⟨.word, "void"⟩) then
      mockArgsLoop start_coord true args rest
    else if type_ = [] ∨ name = none ∨ (name.map Token.type_ ≠ some .word) ∨
        (name.map Token.value = some "") ∨ delim = some ⟨.char, "("⟩ then
      .error (.parseExc ("Invalid %mock directive at " ++ start_coord.str))
    else do
      let t ← make_type type_ "mock" start_coord
      mockArgsLoop start_coord (decide (delim = some ⟨.char, ")"⟩))
        (args ++ [⟨t, (name.map Token.value).getD ""⟩]) rest

/-- Model of the `mock` directive handler body producing the stored mock:
first the return type and function name, then the argument loop.  Returns
the `HypocriteMock` stored under the function name in the mocks map. -/
def mockParse (start_coord : Coordinate) (toks : List Token) :
    Except PyErr HypocriteMock :=
  match extract_type toks _mock_type_delims with
  | [] => .error (.parseExc ("Invalid %mock directive at " ++ start_coord.str))
  | (type_, name, delim) :: rest =>
    if type_ = [] ∨ name = none ∨ (name.map Token.type_ ≠ some .word) ∨
        (name.map Token.value = some "") ∨ delim ≠ some ⟨.char, "("⟩ then
      .error (.parseExc ("Invalid %mock directive at " ++ start_coord.str))
    else do
      let func_name := (name.map Token.value).getD ""
      let return_type ← make_type type_ "mock" start_coord
      let args ← mockArgsLoop start_coord false [] rest
      match start_coord.subCoord start_coord with
      | some r => .ok ⟨r, func_name, return_type, args⟩
      | none => .error .typeError

/-- The attribute state a `FixtureDirective` instance carries between its
`__init__`, `__call__` and `teardown` steps; `code` models the attribute
set only when chaining into a teardown block. -/
structure FixtureDirectiveState where
  name : String
  type_ : Option String
  start_coord : Coordinate
  block_start : Coordinate
  code : Option LineList
  deriving DecidableEq, Repr

/-- Model of the parsing loop of `FixtureDirective.__init__`.  The saved
state doubles as the `end_expected` flag (both are established by the same
branch).  A final `none` models an instance whose attributes were never
set — impossible in practice, because the last `_extract_type` element
carries no delimiter and trips the premature-end error first. -/
def fixtureInitLoop (start_coord : Coordinate) :
    Option FixtureDirectiveState →
    List (List Token × Option Token × Option Token) →
    Except PyErr (Option FixtureDirectiveState)
  | st?, [] => .ok st?
  | some st, (type_, name, delim) :: rest =>
    if type_ ≠ [] ∨ name ≠ none ∨ delim ≠ none then
      .error (.parseExc ("Unexpected tokens after %fixture directive at " ++ start_coord.str))
    else fixtureInitLoop start_coord (some st) rest
  | none, (type_, name, delim) :: rest =>
    if delim = none then
      .error (.parseExc ("Premature end of arguments in %fixture directive at " ++ start_coord.str))
    else if name = none ∨ (name.map Token.type_ ≠ some .word) ∨
        (name.map Token.value = some "") then
      .error (.parseExc ("Invalid %fixture directive at " ++ start_coord.str))
    else
      match (if type_ = [] ∨ type_ = [⟨.word, "void"⟩] then .ok none
             else some <$> make_type type_ "fixture" start_coord :
             Except PyErr (Option String)) with
      | .error e => .error e
      | .ok type_' =>
        fixtureInitLoop start_coord
          (some ⟨(name.map Token.value).getD "", type_', start_coord, start_coord, none⟩) rest

/-- Model of `FixtureDirective.__init__` on the tokens after `%fixture`. -/
def fixtureInit (start_coord : Coordinate) (toks : List Token) :
    Except PyErr (Option FixtureDirectiveState) :=
  fixtureInitLoop start_coord none (extract_type toks [⟨.char, "\x7b"⟩])

/-- The deferred continuation of a `%fixture` directive: the directive
object itself (`__call__`, awaiting the main body's close) or its bound
`teardown` method (awaiting the teardown body's close). -/
inductive FixtureCont where
  | call (st : FixtureDirectiveState)
  | teardown (st : FixtureDirectiveState)
  deriving DecidableEq, Repr

/-- The token sequence `[WORD teardown, CHAR the open brace]` that a
closing-marker line carries to chain into a teardown block. -/
def teardown_toks : List Token :=
  [⟨.word, "teardown"⟩, ⟨.char, "\x7b"⟩]

/-- Model of `FixtureDirective.__call__` and `FixtureDirective.teardown`:
one continuation step over the fixtures map; `toks = none` models the
end-of-file invocation.  Returns the updated map and the chained
continuation, if any. -/
def fixtureStep : FixtureCont → List (String × Fixture) → Coordinate → LineList →
    Option (List Token) → Except PyErr (List (String × Fixture) × Option FixtureCont)
  | .call st, _, _, _, none =>
    .error (.parseExc ("Unclosed %fixture directive at end of file; starts at " ++ st.block_start.str))
  | .call st, fixtures, end_coord, buf, some toks =>
    if toks ≠ [] ∧ toks ≠ teardown_toks then
      .error (.parseExc ("Invalid %teardown directive at " ++ end_coord.str))
    else if toks ≠ [] then
      .ok (fixtures, some (.teardown { st with code := some buf, block_start := end_coord }))
    else
      match st.start_coord.subCoord end_coord with
      | some r => .ok (dictSet fixtures st.name ⟨r, st.name, st.type_, buf, none⟩, none)
      | none => .error .typeError
  | .teardown st, _, _, _, none =>
    .error (.parseExc ("Unclosed %teardown directive at end of file; starts at " ++ st.block_start.str))
  | .teardown st, fixtures, end_coord, buf, some toks =>
    if toks ≠ [] then
      .error (.parseExc ("Invalid end of %teardown directive at " ++ end_coord.str))
    else
      match st.code, st.start_coord.subCoord end_coord with
      | some code, some r =>
        .ok (dictSet fixtures st.name ⟨r, st.name, st.type_, code, some buf⟩, none)
      | none, _ => .error (.attributeError "code")
      | _, none => .error .typeError

/-! ### perfile.py: the line-assembly state machine -/

/-- Whether `p` is a prefix of `l` (used by substring search). -/
def isPre : List Char → List Char → Bool
  | [], _ => true
  | _ :: _, [] => false
  | a :: as, b :: bs => a == b && isPre as bs

/-- Python `str.find(pat)` on character lists: index of the first
occurrence of `pat`, or `none` for the `-1` result. -/
def findSub (pat : List Char) : List Char → Option Nat
  | [] => if pat = [] then some 0 else none
  | l@(_ :: rest) =>
    if isPre pat l then some 0
    else (findSub pat rest).map (· + 1)

theorem isPre_length : ∀ {p l : List Char}, isPre p l = true → p.length ≤ l.length := by
  intro p
  induction p with
  | nil => intro l _; simp
  | cons a as ih =>
    intro l h
    match l with
    | [] => simp [isPre] at h
    | b :: bs =>
      simp only [isPre, Bool.and_eq_true] at h
      simpa using Nat.succ_le_succ (ih h.2)

theorem findSub_bound {pat : List Char} :
    ∀ {l : List Char} {i : Nat}, findSub pat l = some i → i + pat.length ≤ l.length := by
  intro l
  induction l with
  | nil =>
    intro i h
    simp only [findSub] at h
    by_cases hp : pat = ([] : List Char)
    · subst hp; simp_all
    · simp [hp] at h
  | cons b bs ih =>
    intro i h
    simp only [findSub] at h
    by_cases hp : isPre pat (b :: bs) = true
    · simp only [hp, if_pos] at h
      cases h
      simpa using isPre_length hp
    · rw [if_neg hp] at h
      rcases hrec : findSub pat bs with _ | j
      · rw [hrec] at h; cases h
      · rw [hrec] at h
        simp only [Option.map_some'] at h
        cases h
        have := ih hrec
        simp only [List.length_cons]
        omega

/-- The position of the earliest comment marker (`/*` or `//`) on a line:
the `min(pos)` computation of the comment-stripping loop. -/
def commentPos (l : List Char) : Option Nat :=
  match findSub ['/', '*'] l, findSub ['/', '/'] l with
  | some a, some b => some (min a b)
  | some a, none => some a
  | none, some b => some b
  | none, none => none

theorem commentPos_bound {l : List Char} {c : Nat} (h : commentPos l = some c) :
    c + 2 ≤ l.length := by
  unfold commentPos at h
  rcases h1 : findSub ['/', '*'] l with _ | a <;>
    rcases h2 : findSub ['/', '/'] l with _ | b <;>
    simp only [h1, h2] at h <;> try cases h
  · exact findSub_bound h2
  · exact findSub_bound h1
  · have ha := findSub_bound h1
    have hb := findSub_bound h2
    simp only [List.length_cons, List.length_nil] at ha hb
    cases Nat.le_total a b with
    | inl hab => rw [Nat.min_eq_left hab]; omega
    | inr hab => rw [Nat.min_eq_right hab]; omega

/-- Outcome of the same-line comment-stripping loop of `_parse_directive`:
the comment-free line, or a hanging block comment whose prefix must be
remembered (raising the `Continue` signal). -/
inductive StripOut where
  | done (line : List Char)
  | hang (pfx : List Char)
  deriving Repr

/-- Model of the `while True` comment-stripping loop of `_parse_directive`:
the earliest marker wins; `//` truncates the line; a closed `/* ... */` is
replaced with one space and the loop repeats; an unclosed `/*` hangs. -/
def stripComments (l : List Char) : StripOut :=
  match hc : commentPos l with
  | none => .done l
  | some comment =>
    if (l.drop comment).take 2 = ['/', '/'] then .done (l.take comment)
    else
      match he : findSub ['*', '/'] (l.drop (comment + 2)) with
      | none => .hang (l.take comment)
      | some off =>
        stripComments (l.take comment ++ ' ' :: l.drop (comment + 2 + off + 2))
termination_by l.length
decreasing_by
  have hcb := commentPos_bound hc
  have heb := findSub_bound he
  simp only [List.length_drop, List.length_cons] at heb
  simp only [List.length_append, List.length_take, List.length_cons, List.length_drop]
  omega

/-- Python `str.strip()` on its ASCII-whitespace fragment. -/
def pyStrip (l : List Char) : List Char :=
  ((l.dropWhile isPySpace).reverse.dropWhile isPySpace).reverse

/-- Result of `_parse_directive`: the `Continue` signal (more input is
needed) or the directive's start coordinate and token list. -/
inductive DirectiveOut where
  | more
  | dir (coord : Coordinate) (toks : List Token)
  deriving Repr

/-- Model of the `HypoParser` values dictionary, one typed slot per
registered directive key. -/
structure HypoValues where
  target : Option String
  preamble : List Preamble
  tests : List (String × HypocriteTest)
  mocks : List (String × HypocriteMock)
  fixtures : List (String × Fixture)
  deriving DecidableEq, Repr

/-- The deferred-continuation state of the Hypo grammar's multi-line
directives: `PreambleDirective`, `TestDirective` (each retaining what its
`__init__` stored) and the `%fixture` continuation chain. -/
inductive Deferred where
  | preamble (start_coord : Coordinate)
  | test (name : String) (fixtures : List HypoFixtureInjection) (start_coord : Coordinate)
  | fixture (c : FixtureCont)
  deriving DecidableEq, Repr

/-- Model of the per-parse state of `PerFileParser` (test grammar),
together with the values dictionary the handlers mutate.  The string
fields `_comment_pfx` and `_continued` are kept as character lists. -/
structure ParserState where
  deferred : Option Deferred
  buf : Option LineList
  comment_pfx : Option (List Char)
  continued : Option (List Char)
  start_coord : Option Coordinate
  lines : Nat
  values : HypoValues
  deriving Repr

/-- The tail of `_parse_directive` after continuation and hanging-comment
handling: strip same-line comments, whitespace and line continuations,
then check the `%` marker and tokenize. -/
def parse_directive_rest (st : ParserState) (coord : Coordinate) (line : List Char) :
    Except PyErr (ParserState × DirectiveOut) :=
  match stripComments line with
  | .hang pfx =>
    .ok ({ st with comment_pfx := some pfx,
                   start_coord := some (st.start_coord.getD coord) }, .more)
  | .done line2 =>
    let line3 := pyStrip line2
    if line3 = [] then .ok (st, .more)
    else if line3.getLast? = some '\\' then
      .ok ({ st with continued := some line3.dropLast,
                     start_coord := some (st.start_coord.getD coord) }, .more)
    else
      let coord' := st.start_coord.getD coord
      let st' := { st with start_coord := none }
      if line3.head? ≠ some '%' then
        .error (.parseExc ("Invalid directive at " ++ coord'.str))
      else do
        let toks ← tokenize (String.mk line3.tail) coord'
        .ok (st', .dir coord' toks)

/-- A pending continuation fragment joined (with a space) onto the next
raw line — the first step of `_parse_directive`. -/
def contLine : Option (List Char) → List Char → List Char
  | some c, l => c ++ ' ' :: l
  | none, l => l

/-- Model of `PerFileParser._parse_directive`: fold in any pending
continuation fragment (clearing it), resolve a hanging block comment, then
delegate to `parse_directive_rest`. -/
def parse_directive (st : ParserState) (coord : Coordinate) (line0 : List Char) :
    Except PyErr (ParserState × DirectiveOut) :=
  match st.comment_pfx with
  | some pfx =>
    match findSub ['*', '/'] (contLine st.continued line0) with
    | none => .ok ({ st with continued := none }, .more)
    | some e =>
      parse_directive_rest { st with continued := none, comment_pfx := none } coord
        (pfx ++ ' ' :: (contLine st.continued line0).drop (e + 2))
  | none => parse_directive_rest { st with continued := none } coord (contLine st.continued line0)

/-- The registered directive names of the test-definition grammar. -/
def DIRECTIVES_names : List String :=
  ["target", "preamble", "mock", "test", "fixture"]

/-- Model of the fixture-specification loop of `TestDirective.__init__`. -/
def testFixturesLoop (start_coord : Coordinate) :
    List (List Token) → Except PyErr (List HypoFixtureInjection)
  | [] => .ok []
  | fix_toks :: rest =>
    if fix_toks.length < 1 ∨ fix_toks.length > 2 then
      .error (.parseExc ("Invalid fixture specification in %test directive at " ++ start_coord.str))
    else
      let inject := fix_toks.head? ≠ some ⟨.char, "!"⟩
      let fix_toks2 := if fix_toks.head? = some ⟨.char, "!"⟩ then fix_toks.tail else fix_toks
      if fix_toks2.length ≠ 1 ∨ (fix_toks2.head?.map Token.type_) ≠ some .word ∨
          (fix_toks2.head?.map Token.value) = some "" then
        .error (.parseExc ("Invalid fixture specification in %test directive at " ++ start_coord.str))
      else do
        let rest' ← testFixturesLoop start_coord rest
        .ok (⟨(fix_toks2.head?.map Token.value).getD "", inject⟩ :: rest')

/-- Model of the optional-fixtures part of `TestDirective.__init__`
(`toks[1]` must be `(`, `toks[-2]` must be `)`, the names in between are
comma-separated). -/
def testFixtures (start_coord : Coordinate) (toks : List Token) :
    Except PyErr (List HypoFixtureInjection) :=
  if toks.get? 1 ≠ some ⟨.char, "("⟩ ∨ toks.dropLast.getLast? ≠ some ⟨.char, ")"⟩ then
    .error (.parseExc ("Invalid %test directive at " ++ start_coord.str))
  else
    testFixturesLoop start_coord
      (split_toks ((toks.drop 2).dropLast.dropLast) [⟨.char, ","⟩])

/-- Model of directive-registry lookup plus handler invocation for the
test grammar: dispatch on the directive word; returns the updated values
and the new deferred continuation, if the handler produced one. -/
def runDirective (values : HypoValues) (dir_coord : Coordinate) (name : String)
    (toks : List Token) : Except PyErr (HypoValues × Option Deferred) :=
  if name = "target" then
    if toks.length ≠ 1 ∨ (toks.head?.map Token.type_) ≠ some .str ∨
        (toks.head?.map Token.value) = some "" then
      .error (.parseExc ("Invalid %file directive at " ++ dir_coord.str))
    else .ok ({ values with target := toks.head?.map Token.value }, none)
  else if name = "preamble" then
    if toks ≠ [⟨.char, "\x7b"⟩] then
      .error (.parseExc ("Invalid %preamble directive at " ++ dir_coord.str))
    else .ok (values, some (.preamble dir_coord))
  else if name = "mock" then do
    let m ← mockParse dir_coord toks
    .ok ({ values with mocks := dictSet values.mocks m.name m }, none)
  else if name = "test" then
    if toks.length < 2 ∨ (toks.head?.map Token.type_) ≠ some .word ∨
        (toks.head?.map Token.value) = some "" ∨
        toks.getLast? ≠ some ⟨.char, "\x7b"⟩ then
      .error (.parseExc ("Invalid %test directive at " ++ dir_coord.str))
    else
      let tname := (toks.head?.map Token.value).getD ""
      match (if toks.length > 2 then testFixtures dir_coord toks
             else .ok [] : Except PyErr (List HypoFixtureInjection)) with
      | .error e => .error e
      | .ok fixtures => .ok (values, some (.test tname fixtures dir_coord))
  else do
    -- name = "fixture" (the caller has already checked registry membership)
    let st? ← fixtureInit dir_coord toks
    match st? with
    | some st => .ok (values, some (.fixture (.call st)))
    | none => .error (.attributeError "name")

/-- Model of invoking the current deferred continuation with the end
coordinate, the accumulated body and the closing tokens (`none` models the
end-of-file invocation). -/
def runDeferred : Deferred → HypoValues → Coordinate → LineList → Option (List Token) →
    Except PyErr (HypoValues × Option Deferred)
  | .preamble start_coord, _, _, _, none =>
    .error (.parseExc ("Unclosed %preamble directive at end of file; starts at " ++ start_coord.str))
  | .preamble start_coord, values, end_coord, buf, some toks =>
    if toks ≠ [] then
      .error (.parseExc ("Invalid end of %preamble directive at " ++ end_coord.str))
    else
      match start_coord.subCoord end_coord with
      | some r => .ok ({ values with preamble := values.preamble ++ [⟨r, buf⟩] }, none)
      | none => .error .typeError
  | .test tname _ start_coord, _, _, _, none =>
    .error (.parseExc ("Unclosed %test directive at end of file; starts at " ++ start_coord.str))
  | .test tname fixtures start_coord, values, end_coord, buf, some toks =>
    if toks ≠ [] then
      .error (.parseExc ("Invalid end of %test directive at " ++ end_coord.str))
    else
      match start_coord.subCoord end_coord with
      | some r =>
        .ok ({ values with tests := dictSet values.tests tname ⟨r, tname, buf, fixtures⟩ }, none)
      | none => .error .typeError
  | .fixture c, values, end_coord, buf, toks =>
    match fixtureStep c values.fixtures end_coord buf toks with
    | .error e => .error e
    | .ok (fixtures', c') =>
      .ok ({ values with fixtures := fixtures' }, c'.map .fixture)

/-- A raw input line with its single trailing newline removed, as appended
to the accumulation buffer. -/
def stripNewline (line : String) : String :=
  if line.toList.getLast? = some '\n' then String.mk line.toList.dropLast else line

/-- Model of `PerFileParser._parse_line` (test grammar): one input line,
dispatching directives or accumulating a deferred body.  The `Continue`
signal is absorbed into an `ok` with updated state (the caller proceeds to
the next line either way). -/
def parse_line (st0 : ParserState) (coord : Coordinate) (line : String) :
    Except PyErr ParserState :=
  let st := { st0 with lines := st0.lines + 1 }
  match st.deferred with
  | none => do
    let (st', out) ← parse_directive st coord line.toList
    match out with
    | .more => .ok st'
    | .dir dir_coord tokens =>
      match tokens with
      | [] => .error (.parseExc ("Invalid directive at " ++ dir_coord.str))
      | tok0 :: toksRest =>
        if tok0.type_ ≠ .word ∨ tok0.value ∉ DIRECTIVES_names then
          .error (.parseExc ("Invalid directive at " ++ dir_coord.str))
        else do
          let (values', d') ← runDirective st'.values dir_coord tok0.value toksRest
          .ok { st' with values := values', deferred := d',
                         buf := if d'.isSome then some [] else none }
  | some d =>
    if st.comment_pfx.isSome ∨ st.continued.isSome ∨
        ((line.toList.dropWhile isPySpace).head? = some '%') then do
      let (st', out) ← parse_directive st coord line.toList
      match out with
      | .more => .ok st'
      | .dir dir_coord tokens =>
        if tokens.head? ≠ some ⟨.char, "\x7d"⟩ then
          .error (.parseExc ("Invalid directive at " ++ dir_coord.str))
        else do
          let (values', d') ← runDeferred d st'.values dir_coord (st'.buf.getD []) (some tokens.tail)
          .ok { st' with values := values', deferred := d',
                         buf := if d'.isSome then some [] else none }
    else
      .ok { st with buf := some ((st.buf.getD []) ++ [⟨coord, stripNewline line⟩]) }

/-- The per-directive initial values: `%target` registers the fixed value
`None`, while `%preamble`, `%mock`, `%test` and `%fixture` register
zero-argument factories producing a fresh empty list / dict /
`OrderedDict` / dict per parse.  In this pure model a factory's fresh
result and a shared immutable value are indistinguishable. -/
def target_init : Option String := none

/-- Initial-value factory of `%preamble` (`lambda: []`). -/
def preamble_init : Unit → List Preamble := fun _ => []

/-- Initial-value factory of `%mock` (`lambda: \x7b\x7d`, key `mocks`). -/
def mocks_init : Unit → List (String × HypocriteMock) := fun _ => []

/-- Initial-value factory of `%test` (`collections.OrderedDict`, key
`tests`). -/
def tests_init : Unit → List (String × HypocriteTest) := fun _ => []

/-- Initial-value factory of `%fixture` (`lambda: \x7b\x7d`, key
`fixtures`). -/
def fixtures_init : Unit → List (String × Fixture) := fun _ => []

/-- Model of `PerFileParser._values` for the test grammar: the values
dictionary seeded from every registered directive's initial value, with
each factory invoked for this parse. -/
def HypoParser_values : HypoValues :=
  ⟨target_init, preamble_init (), tests_init (), mocks_init (), fixtures_init ()⟩

/-- Model of `PerFileParser.__init__`: the fresh per-parse state. -/
def initState (values : HypoValues) : ParserState :=
  ⟨none, none, none, none, none, 0, values⟩

/-- The line loop of `PerFileParser.parse`: lines are enumerated from 0 and
given 1-indexed coordinates. -/
def parseLines (path : String) : ParserState → Nat → List String → Except PyErr ParserState
  | st, _, [] => .ok st
  | st, lno, line :: rest => do
    let st' ← parse_line st ⟨path, (lno : Int) + 1⟩ line
    parseLines path st' (lno + 1) rest

/-- Python `'%s' % c` for an optional coordinate (`None` prints as such). -/
def optCoordStr : Option Coordinate → String
  | some c => c.str
  | none => "None"

/-- Model of the end-of-stream checks of `PerFileParser.parse`: trailing
continuation, unclosed comment, then the final invocation of an unresolved
deferred directive (whose own error propagates; the framework's generic
location-free complaint is raised only if the handler stays silent). -/
def parseFinish (path : String) (st : ParserState) : Except PyErr HypoValues :=
  if st.continued.isSome then
    .error (.parseExc ("Trailing directive continuation at end of file; starts at " ++
      optCoordStr st.start_coord))
  else if st.comment_pfx.isSome then
    .error (.parseExc ("Unclosed comment at end of file; starts at " ++
      optCoordStr st.start_coord))
  else
    match st.deferred with
    | some d => do
      let _ ← runDeferred d st.values ⟨path, (st.lines : Int)⟩ (st.buf.getD []) none
      .error (.parseExc "Unclosed directive at end of file")
    | none => .ok st.values

/-- Model of `PerFileParser.parse` for the test grammar, over the list of
raw input lines of the stream. -/
def HypoParser_parse (path : String) (stream : List String) : Except PyErr HypoValues := do
  let st ← parseLines path (initState HypoParser_values) 0 stream
  parseFinish path st

/-! ### template.py: section rendering -/

/-- Values bound in the keyword arguments of a render: strings or ordered
line sequences (the shapes the section mini-language consumes). -/
inductive PyVal where
  | str (s : String)
  | strList (ls : List String)
  deriving DecidableEq, Repr

/-- Keyword-argument lookup (`kwargs[k]` without the exception). -/
def kwGet (kwargs : List (String × PyVal)) (k : String) : Option PyVal :=
  dictGet kwargs k

/-- The `[a-zA-Z_]` class of `SUBST_RE`. -/
def isIdentStart (c : Char) : Bool := c == '_' || c.isAlpha

/-- The `[a-zA-Z0-9_]` class of `SUBST_RE`. -/
def isIdentChar (c : Char) : Bool := c == '_' || c.isAlphanum

/-- The closing part of a `SUBST_RE` match: after the identifier and any
whitespace, two closing braces must follow. -/
def expandoClose (ident : List Char) (rest2 : List Char) : Option (String × List Char) :=
  match rest2 with
  | d :: d' :: rest3 =>
    if d = '}' ∧ d' = '}' then some (String.mk ident, rest3) else none
  | _ => none

/-- The identifier part of a `SUBST_RE` match: after the opening braces and
any whitespace, a `[a-zA-Z_][a-zA-Z0-9_]*` identifier (greedy). -/
def expandoIdent (rest1 : List Char) : Option (String × List Char) :=
  match rest1 with
  | c0 :: _ =>
    if isIdentStart c0 then
      expandoClose (rest1.takeWhile isIdentChar)
        ((rest1.drop (rest1.takeWhile isIdentChar).length).dropWhile isPySpace)
    else none
  | [] => none

/-- Attempt to match `SUBST_RE` — a double-brace expando with optional
inner whitespace around the identifier — at the head of the character
list, returning the identifier and the remainder after the match. -/
def matchExpando (cs : List Char) : Option (String × List Char) :=
  match cs with
  | c :: c' :: rest =>
    if c = '{' ∧ c' = '{' then expandoIdent (rest.dropWhile isPySpace) else none
  | _ => none

theorem length_dropWhile_le (p : Char → Bool) (l : List Char) :
    (l.dropWhile p).length ≤ l.length := by
  induction l with
  | nil => simp
  | cons a as ih =>
    by_cases h : p a
    · simp only [List.dropWhile_cons, h, if_pos]
      exact Nat.le_succ_of_le ih
    · simp [List.dropWhile_cons, h]

theorem expandoClose_shrink {ident r2 : List Char} {i : String} {rest : List Char}
    (h : expandoClose ident r2 = some (i, rest)) : rest.length + 2 ≤ r2.length := by
  match r2 with
  | [] => simp [expandoClose] at h
  | [d] => simp [expandoClose] at h
  | d :: d' :: r3 =>
    simp only [expandoClose] at h
    split at h
    · simp only [Option.some.injEq, Prod.mk.injEq] at h
      obtain ⟨-, hrest⟩ := h
      subst hrest
      simp
    · cases h

theorem expandoIdent_shrink {r1 : List Char} {i : String} {rest : List Char}
    (h : expandoIdent r1 = some (i, rest)) : rest.length + 2 ≤ r1.length := by
  match r1 with
  | [] => simp [expandoIdent] at h
  | c0 :: r1tl =>
    simp only [expandoIdent] at h
    split at h
    · have h2 := expandoClose_shrink h
      have h3 : (((c0 :: r1tl).drop
          ((c0 :: r1tl).takeWhile isIdentChar).length).dropWhile isPySpace).length ≤
          (c0 :: r1tl).length :=
        calc (((c0 :: r1tl).drop _).dropWhile isPySpace).length
            ≤ ((c0 :: r1tl).drop _).length := length_dropWhile_le _ _
          _ ≤ (c0 :: r1tl).length := by rw [List.length_drop]; omega
      omega
    · cases h

theorem matchExpando_shrink :
    ∀ {cs : List Char} {ident : String} {rest : List Char},
      matchExpando cs = some (ident, rest) → rest.length < cs.length := by
  intro cs ident rest h
  match cs with
  | [] => simp [matchExpando] at h
  | [c] => simp [matchExpando] at h
  | c :: c' :: tl =>
    simp only [matchExpando] at h
    split at h
    · have h2 := expandoIdent_shrink h
      have h3 : (tl.dropWhile isPySpace).length ≤ tl.length := length_dropWhile_le _ _
      simp only [List.length_cons]
      omega
    · cases h

/-- Model of `SUBST_RE.sub(lambda x: kwargs[x.group(1)], text)`: scan left
to right; each match is replaced by the bound value (a missing binding
raises `KeyError` from the lambda; a non-string binding makes `re.sub`
raise `TypeError`). -/
def substLine (kwargs : List (String × PyVal)) : List Char → Except PyErr (List Char)
  | [] => .ok []
  | c :: cs =>
    match h : matchExpando (c :: cs) with
    | some (ident, rest) =>
      match kwGet kwargs ident with
      | none => .error (.keyError ident)
      | some (.str s) => do
        let t ← substLine kwargs rest
        .ok (s.toList ++ t)
      | some (.strList _) => .error .typeError
    | none => do
      let t ← substLine kwargs cs
      .ok (c :: t)
termination_by l => l.length
decreasing_by
  · exact matchExpando_shrink h
  · simp

/-- Python `str.split()` with no argument: split on whitespace runs,
discarding empty fields. -/
def pySplit (l : List Char) : List String :=
  ((l.splitOnP isPySpace).filter (fun w => w ≠ [])).map (fun w => String.mk w)

/-- Model of `template.Section` (the record the `%section` directive
stores). -/
structure TmplSection where
  coord_range : CoordinateRange
  name : String
  requires : List String
  contents : LineList
  deriving Repr

/-- Python `str.startswith` (prefix test on the character lists). -/
def pyStartswith (s pre : String) : Bool :=
  isPre pre.toList s.toList

/-- Model of one iteration of the body loop of `Section.render`: the lines
contributed for one contents entry.  A `#replace` line is replaced by the
value bound to the word after `#replace`, each contributed line carrying no
coordinate (iterating a Python string yields its characters); any other
line is substituted through `SUBST_RE` and keeps its own coordinate. -/
def renderEntry (kwargs : List (String × PyVal)) (e : Entry) :
    Except PyErr LineList :=
  if pyStartswith e.text "#replace" then
    match (pySplit e.text.toList).get? 1 with
    | none => .error .indexError
    | some var =>
      match kwGet kwargs var with
      | none => .error (.keyError var)
      | some (.strList ls) => .ok (ls.map (fun line => ⟨none, line⟩))
      | some (.str s) => .ok (s.toList.map (fun ch => ⟨none, String.singleton ch⟩))
  else do
    let lineChars ← substLine kwargs e.text.toList
    .ok [⟨e.coord, String.mk lineChars⟩]

/-- Model of `Section.render`: `none` when a required variable is missing
from the keyword arguments (the section renders to nothing); otherwise the
in-order concatenation of each body entry's contribution. -/
def TmplSection.render (sec : TmplSection) (kwargs : List (String × PyVal)) :
    Except PyErr (Option LineList) :=
  if sec.requires.any (fun r => (kwGet kwargs r).isNone) then .ok none
  else do
    let blocks ← sec.contents.mapM (renderEntry kwargs)
    .ok (some blocks.join)

/-! ### Specification-side predicates -/

/-- The per-entry output shape the claim describes: the entry's text,
preceded by exactly one `#line` directive when contiguity breaks. -/
def BlockSpec (pe : Option Coordinate × Entry) (b : List String) : Prop :=
  if breaksContiguity pe.1 pe.2.coord then ∃ d, b = [d, pe.2.text]
  else b = [pe.2.text]

/-- The delimiter occurrences of a token list, in order. -/
def delimOccs (toks delims : List Token) : List Token :=
  toks.filter (fun t => decide (t ∈ delims))

/-- `s` occurs inside `msg` as a contiguous substring. -/
def ContainsSub (s msg : String) : Prop :=
  ∃ a b, msg = a ++ s ++ b

/-- `msg` carries a `file:line` location for `path`. -/
def HasLoc (path msg : String) : Prop :=
  ∃ n : Int, ContainsSub (path ++ ":" ++ toString n) msg

/-- `e` is a parse failure whose message ends in the rendering of a
coordinate on `path` (the shape of every parser error message). -/
def LocParseErr (path : String) (e : PyErr) : Prop :=
  ∃ (pre : String) (c : Coordinate), e = .parseExc (pre ++ c.str) ∧ c.path = path

/-- The path invariant on a deferred continuation: every coordinate it
retains lies on the file being parsed, and a teardown continuation always
carries the main body. -/
def DefInv (path : String) : Deferred → Prop
  | .preamble sc => sc.path = path
  | .test _ _ sc => sc.path = path
  | .fixture (.call st) => st.start_coord.path = path ∧ st.block_start.path = path
  | .fixture (.teardown st) =>
    st.start_coord.path = path ∧ st.block_start.path = path ∧ st.code.isSome = true

/-- The start-coordinate invariant of the line-assembly state: a recorded
start coordinate lies on the parsed file, and a pending continuation or
hanging comment always has a recorded start coordinate. -/
def SCInv (path : String) (st : ParserState) : Prop :=
  (∀ c, st.start_coord = some c → c.path = path) ∧
  (st.continued.isSome = true → st.start_coord.isSome = true) ∧
  (st.comment_pfx.isSome = true → st.start_coord.isSome = true)

/-- The full parser-state invariant. -/
def StInv (path : String) (st : ParserState) : Prop :=
  SCInv path st ∧ ∀ d, st.deferred = some d → DefInv path d

/-! ## Theorems -/

/-! ### Claim C7: coordinate subtraction -/

/-- C7: for coordinates on equal paths, `a - b` yields the range from the
minimum to the maximum of the two line numbers, order-independently;
`a - a` yields a one-line range at `a`'s line; differing paths make the
subtraction fail (`NotImplemented`) instead of producing a range. -/
theorem coordinate_sub_spec (a b : Coordinate) :
    (a.path = b.path →
      a.subCoord b = some ⟨a.path, min a.lno b.lno, max a.lno b.lno⟩ ∧
      a.subCoord b = b.subCoord a) ∧
    a.subCoord a = some ⟨a.path, a.lno, a.lno⟩ ∧
    (a.path ≠ b.path → a.subCoord b = none) := by
  refine ⟨fun hp => ⟨?_, ?_⟩, ?_, fun hp => ?_⟩
  · simp only [Coordinate.subCoord, if_pos hp]
    rcases lt_trichotomy a.lno b.lno with h | h | h
    · rw [if_pos h, min_eq_left h.le, max_eq_right h.le]
    · rw [if_neg (by omega), min_eq_left h.le, max_eq_left h.ge]
      simp [h]
    · rw [if_neg (by omega), min_eq_right h.le, max_eq_left h.le]
  · simp only [Coordinate.subCoord, if_pos hp, if_pos hp.symm]
    rcases lt_trichotomy a.lno b.lno with h | h | h
    · rw [if_pos h, if_neg (by omega)]
      simp [hp]
    · rw [if_neg (by omega), if_neg (by omega)]
      simp [hp, h]
    · rw [if_neg (by omega), if_pos h]
      simp [hp]
  · simp [Coordinate.subCoord]
  · simp [Coordinate.subCoord, hp]

/-- C7 witness: concrete instances of the three parts. -/
theorem coordinate_sub_spec_witness :
    Coordinate.subCoord ⟨"f", 42⟩ ⟨"f", 23⟩ = some ⟨"f", 23, 42⟩ ∧
    Coordinate.subCoord ⟨"f", 23⟩ ⟨"f", 42⟩ = Coordinate.subCoord ⟨"f", 42⟩ ⟨"f", 23⟩ ∧
    Coordinate.subCoord ⟨"f", 7⟩ ⟨"f", 7⟩ = some ⟨"f", 7, 7⟩ ∧
    Coordinate.subCoord ⟨"f", 1⟩ ⟨"g", 2⟩ = none := by
  have h1 := (coordinate_sub_spec ⟨"f", 42⟩ ⟨"f", 23⟩).1 rfl
  have h2 := (coordinate_sub_spec ⟨"f", 7⟩ ⟨"f", 7⟩).2.1
  have h3 := (coordinate_sub_spec ⟨"f", 1⟩ ⟨"g", 2⟩).2.2 (by decide)
  refine ⟨?_, ?_, h2, h3⟩
  · rw [h1.1]; rfl
  · exact h1.2.symm

/-! ### Claim C8: LineList ordering and append-only invariant -/

theorem applyOp_eq (ll : LineList) (op : LLOp) : applyOp ll op = ll ++ op.entries := by
  cases op <;> rfl

theorem applyOps_eq (ops : List LLOp) :
    ∀ ll : LineList, applyOps ll ops = ll ++ (ops.map LLOp.entries).join := by
  induction ops with
  | nil => intro ll; simp [applyOps]
  | cons op ops ih =>
    intro ll
    show applyOps (applyOp ll op) ops = _
    rw [ih, applyOp_eq]
    simp

/-- C8: over any sequence of `LineList` operations, the length is the
initial length plus the number of entries added, iteration yields the
texts in order of addition, and the previous entries survive unchanged as
a prefix (append-only). -/
theorem linelist_append_only (ll : LineList) (ops : List LLOp) :
    (applyOps ll ops).length = ll.length + (ops.map (fun op => op.entries.length)).sum ∧
    (applyOps ll ops).map Entry.text =
      ll.map Entry.text ++ (ops.map (fun op => op.entries.map Entry.text)).join ∧
    ∃ t, ll ++ t = applyOps ll ops := by
  rw [applyOps_eq]
  refine ⟨?_, ?_, ⟨(ops.map LLOp.entries).join, rfl⟩⟩
  · rw [List.length_append, List.length_join, List.map_map]
    rfl
  · rw [List.map_append, List.map_join, List.map_map]
    rfl

/-! ### Claim C9: split_toks round-trip -/

theorem splitToksAux_length (delims : List Token) :
    ∀ (toks stack : List Token),
      (splitToksAux delims stack toks).length = (delimOccs toks delims).length + 1 := by
  intro toks
  induction toks with
  | nil => intro stack; simp [splitToksAux, delimOccs]
  | cons t rest ih =>
    intro stack
    by_cases h : t ∈ delims
    · simp [splitToksAux, h, delimOccs, List.filter_cons, ih]
    · simp [splitToksAux, h, delimOccs, List.filter_cons, ih ]

theorem delimOccs_cons_mem {t : Token} {delims : List Token} (rest : List Token)
    (h : t ∈ delims) : delimOccs (t :: rest) delims = t :: delimOccs rest delims := by
  simp [delimOccs, List.filter_cons, h]

theorem delimOccs_cons_not_mem {t : Token} {delims : List Token} (rest : List Token)
    (h : t ∉ delims) : delimOccs (t :: rest) delims = delimOccs rest delims := by
  simp [delimOccs, List.filter_cons, h]

theorem splitToksAux_interleave (delims : List Token) :
    ∀ (toks stack : List Token),
      interleave ((splitToksAux delims stack toks).map Prod.fst)
        (delimOccs toks delims) = stack ++ toks := by
  intro toks
  induction toks with
  | nil => intro stack; simp [splitToksAux, delimOccs, interleave]
  | cons t rest ih =>
    intro stack
    by_cases h : t ∈ delims
    · rw [splitToksAux, if_pos h, delimOccs_cons_mem rest h, List.map_cons, interleave,
        ih ([] : List Token)]
      simp
    · rw [splitToksAux, if_neg h, delimOccs_cons_not_mem rest h, ih (stack ++ [t])]
      simp

/-- C9: `split_toks` yields one more stack than there are delimiter
occurrences (hence always at least one), and interleaving the stacks with
the delimiter occurrences in order reconstructs the input exactly. -/
theorem split_toks_round_trip (toks delims : List Token) :
    (split_toks toks delims).length = (delimOccs toks delims).length + 1 ∧
    interleave (split_toks toks delims) (delimOccs toks delims) = toks ∧
    split_toks toks delims ≠ [] := by
  have h1 : (split_toks toks delims).length = (delimOccs toks delims).length + 1 := by
    simp only [split_toks, splitToksD, List.length_map]
    exact splitToksAux_length delims toks []
  refine ⟨h1, ?_, ?_⟩
  · simpa using splitToksAux_interleave delims toks []
  · intro hnil
    rw [hnil] at h1
    simp at h1

/-! ### Claim C6: %mock parsing -/

/-- C6: parsing `%mock struct st_name * func_name(void *arg1, int arg2)`
stores return type `"struct st_name *"` and the two typed arguments; the
tokenizer keeps adjacent `*` characters as separate CHAR tokens while
`_make_type` joins them without a space (`void * *` becomes `void **`) and
joins a WORD followed by `*` with a space; `%mock void foo()` and
`%mock void foo(void)` both store zero arguments. -/
theorem mock_directive_spec :
    tokenize "mock struct st_name * func_name(void *arg1, int arg2)" ⟨"f.hypo", 3⟩ =
      .ok [⟨.word, "mock"⟩, ⟨.word, "struct"⟩, ⟨.word, "st_name"⟩, ⟨.char, "*"⟩,
           ⟨.word, "func_name"⟩, ⟨.char, "("⟩, ⟨.word, "void"⟩, ⟨.char, "*"⟩,
           ⟨.word, "arg1"⟩, ⟨.char, ","⟩, ⟨.word, "int"⟩, ⟨.word, "arg2"⟩,
           ⟨.char, ")"⟩] ∧
    mockParse ⟨"f.hypo", 3⟩
      [⟨.word, "struct"⟩, ⟨.word, "st_name"⟩, ⟨.char, "*"⟩,
       ⟨.word, "func_name"⟩, ⟨.char, "("⟩, ⟨.word, "void"⟩, ⟨.char, "*"⟩,
       ⟨.word, "arg1"⟩, ⟨.char, ","⟩, ⟨.word, "int"⟩, ⟨.word, "arg2"⟩,
       ⟨.char, ")"⟩] =
      .ok ⟨⟨"f.hypo", 3, 3⟩, "func_name", "struct st_name *",
           [⟨"void *", "arg1"⟩, ⟨"int", "arg2"⟩]⟩ ∧
    tokenize "void **" ⟨"f.hypo", 3⟩ =
      .ok [⟨.word, "void"⟩, ⟨.char, "*"⟩, ⟨.char, "*"⟩] ∧
    make_type [⟨.word, "void"⟩, ⟨.char, "*"⟩, ⟨.char, "*"⟩] "mock" ⟨"f.hypo", 3⟩ =
      .ok "void **" ∧
    mockParse ⟨"f.hypo", 4⟩
      [⟨.word, "void"⟩, ⟨.word, "foo"⟩, ⟨.char, "("⟩, ⟨.char, ")"⟩] =
      .ok ⟨⟨"f.hypo", 4, 4⟩, "foo", "void", []⟩ ∧
    mockParse ⟨"f.hypo", 5⟩
      [⟨.word, "void"⟩, ⟨.word, "foo"⟩, ⟨.char, "("⟩, ⟨.word, "void"⟩, ⟨.char, ")"⟩] =
      .ok ⟨⟨"f.hypo", 5, 5⟩, "foo", "void", []⟩ := by
  exact ⟨rfl, rfl, rfl, rfl, rfl, rfl⟩

/-! ### Claim C3: tokenizer -/

theorem exists_error_bind {α β : Type} (f : Except PyErr α) (g : α → β) :
    (∃ e, (f >>= fun rest => Except.ok (g rest)) = .error e) ↔ ∃ e, f = .error e := by
  cases f <;> simp [Bind.bind, Except.bind]

theorem tokenizeAux_error_iff (coord : Coordinate) :
    ∀ (cs : List Char) (state : Option TokType) (buf : String),
      (∃ e, tokenizeAux coord state buf cs = .error e) ↔
        (cs.count '"' + (if state = some TokType.str then 1 else 0)) % 2 = 1 := by
  intro cs
  induction cs with
  | nil =>
    intro state buf
    match state with
    | none => simp [tokenizeAux]
    | some .str => simp [tokenizeAux]
    | some .word => simp [tokenizeAux]
    | some .char => simp [tokenizeAux]
  | cons c cs ih =>
    intro state buf
    match state with
    | none =>
      rw [tokenizeAux]
      by_cases h1 : isPySpace c = true
      · have hc : ('"' : Char) ≠ c := by
          intro hh; rw [← hh] at h1; exact absurd h1 (by decide)
        rw [if_pos h1, ih none buf]
        simp [List.count_cons, hc]
      · rw [if_neg h1]
        by_cases h2 : c = '"'
        · subst h2
          rw [if_pos rfl, ih (some .str) ""]
          simp [List.count_cons]
        · rw [if_neg h2]
          have hc : ('"' : Char) ≠ c := fun hh => h2 hh.symm
          by_cases h3 : c = '_' ∨ c.isAlpha
          · rw [if_pos h3, ih (some .word) (String.singleton c)]
            simp [List.count_cons, hc]
          · rw [if_neg h3, exists_error_bind, ih none buf]
            simp [List.count_cons, hc]
    | some .str =>
      rw [tokenizeAux]
      by_cases h2 : c = '"'
      · subst h2
        rw [if_pos rfl, exists_error_bind, ih none buf]
        simp [List.count_cons]
        omega
      · rw [if_neg h2]
        have hc : ('"' : Char) ≠ c := fun hh => h2 hh.symm
        rw [ih (some .str) (buf.push c)]
        simp [List.count_cons, hc]
    | some .word =>
      rw [tokenizeAux]
      by_cases h1 : isPySpace c = true
      · have hc : ('"' : Char) ≠ c := by
          intro hh; rw [← hh] at h1; exact absurd h1 (by decide)
        rw [if_pos h1, exists_error_bind, ih none buf]
        simp [List.count_cons, hc]
      · rw [if_neg h1]
        by_cases h3 : c = '_' ∨ c.isAlphanum
        · have hc : ('"' : Char) ≠ c := by
            intro hh; rw [← hh] at h3; revert h3; decide
          rw [if_pos h3, ih (some .word) (buf.push c)]
          simp [List.count_cons, hc]
        · rw [if_neg h3]
          by_cases h2 : c = '"'
          · subst h2
            rw [if_pos rfl, exists_error_bind, ih (some .str) ""]
            simp [List.count_cons]
          · have hc : ('"' : Char) ≠ c := fun hh => h2 hh.symm
            rw [if_neg h2, exists_error_bind, ih none buf]
            simp [List.count_cons, hc]
    | some .char =>
      rw [tokenizeAux]
      by_cases h1 : isPySpace c = true
      · have hc : ('"' : Char) ≠ c := by
          intro hh; rw [← hh] at h1; exact absurd h1 (by decide)
        rw [if_pos h1, exists_error_bind, ih none buf]
        simp [List.count_cons, hc]
      · rw [if_neg h1]
        by_cases h3 : c = '_' ∨ c.isAlphanum
        · have hc : ('"' : Char) ≠ c := by
            intro hh; rw [← hh] at h3; revert h3; decide
          rw [if_pos h3, ih (some .word) (buf.push c)]
          simp [List.count_cons, hc]
        · rw [if_neg h3]
          by_cases h2 : c = '"'
          · subst h2
            rw [if_pos rfl, exists_error_bind, ih (some .str) ""]
            simp [List.count_cons]
          · have hc : ('"' : Char) ≠ c := fun hh => h2 hh.symm
            rw [if_neg h2, exists_error_bind, ih none buf]
            simp [List.count_cons, hc]

theorem tokenizeAux_error_msg (coord : Coordinate) :
    ∀ (cs : List Char) (state : Option TokType) (buf : String) (e : PyErr),
      tokenizeAux coord state buf cs = .error e →
      e = .parseExc ("Unclosed string encountered at " ++ coord.str) := by
  intro cs
  induction cs with
  | nil =>
    intro state buf e h
    match state with
    | none => cases h
    | some .str => cases h; rfl
    | some .word => cases h
    | some .char => cases h
  | cons c cs ih =>
    intro state buf e h
    match state with
    | none =>
      rw [tokenizeAux] at h
      split at h
      · exact ih _ _ _ h
      · split at h
        · exact ih _ _ _ h
        · split at h
          · exact ih _ _ _ h
          · rcases hrec : tokenizeAux coord none buf cs with e' | toks <;>
              rw [hrec] at h
            · cases h; exact ih _ _ _ hrec
            · cases h
    | some .str =>
      rw [tokenizeAux] at h
      split at h
      · rcases hrec : tokenizeAux coord none buf cs with e' | toks <;> rw [hrec] at h
        · cases h; exact ih _ _ _ hrec
        · cases h
      · exact ih _ _ _ h
    | some .word =>
      rw [tokenizeAux] at h
      split at h
      · rcases hrec : tokenizeAux coord none buf cs with e' | toks <;> rw [hrec] at h
        · cases h; exact ih _ _ _ hrec
        · cases h
      · split at h
        · exact ih _ _ _ h
        · split at h
          · rcases hrec : tokenizeAux coord (some .str) "" cs with e' | toks <;> rw [hrec] at h
            · cases h; exact ih _ _ _ hrec
            · cases h
          · rcases hrec : tokenizeAux coord none buf cs with e' | toks <;> rw [hrec] at h
            · cases h; exact ih _ _ _ hrec
            · cases h
    | some .char =>
      rw [tokenizeAux] at h
      split at h
      · rcases hrec : tokenizeAux coord none buf cs with e' | toks <;> rw [hrec] at h
        · cases h; exact ih _ _ _ hrec
        · cases h
      · split at h
        · exact ih _ _ _ h
        · split at h
          · rcases hrec : tokenizeAux coord (some .str) "" cs with e' | toks <;> rw [hrec] at h
            · cases h; exact ih _ _ _ hrec
            · cases h
          · rcases hrec : tokenizeAux coord none buf cs with e' | toks <;> rw [hrec] at h
            · cases h; exact ih _ _ _ hrec
            · cases h

/-- C3: tokenizing the spec's sample yields exactly the claimed token
sequence; tokenization fails exactly when the final string token is never
closed (an odd number of quote characters), and any such failure is the
parse-failure kind with the unclosed-string message naming the line's
coordinate (in particular for the `"abc` sample). -/
theorem tokenize_spec :
    tokenize "this is a test !  Let \"us\" see\"what\"happens." ⟨"f.hypo", 7⟩ =
      .ok [⟨.word, "this"⟩, ⟨.word, "is"⟩, ⟨.word, "a"⟩, ⟨.word, "test"⟩,
           ⟨.char, "!"⟩, ⟨.word, "Let"⟩, ⟨.str, "us"⟩, ⟨.word, "see"⟩,
           ⟨.str, "what"⟩, ⟨.word, "happens"⟩, ⟨.char, "."⟩] ∧
    (∀ (text : String) (coord : Coordinate),
      (∃ e, tokenize text coord = .error e) ↔ text.toList.count '"' % 2 = 1) ∧
    (∀ (text : String) (coord : Coordinate) (e : PyErr),
      tokenize text coord = .error e →
      e = .parseExc ("Unclosed string encountered at " ++ coord.str)) ∧
    tokenize "\"abc" ⟨"f.hypo", 9⟩ =
      .error (.parseExc ("Unclosed string encountered at " ++
        Coordinate.str ⟨"f.hypo", 9⟩)) := by
  refine ⟨rfl, ?_, ?_, rfl⟩
  · intro text coord
    have h := tokenizeAux_error_iff coord text.toList none ""
    simpa using h
  · intro text coord e h
    exact tokenizeAux_error_msg coord text.toList none "" e h

/-- C3 witness: the unterminated-string sample has an odd quote count, so
the tokenizer rejects it, and its error carries the exact message. -/
theorem tokenize_spec_witness :
    (∃ e, tokenize "\"abc" ⟨"w", 2⟩ = .error e) ∧
    PyErr.parseExc ("Unclosed string encountered at " ++ Coordinate.str ⟨"w", 2⟩) =
      .parseExc ("Unclosed string encountered at " ++ Coordinate.str ⟨"w", 2⟩) := by
  constructor
  · exact (tokenize_spec.2.1 "\"abc" ⟨"w", 2⟩).2 (by decide)
  · exact tokenize_spec.2.2.1 "\"abc" ⟨"w", 2⟩ _ rfl

/-! ### Claim C1: LineList output serialization -/

theorem breaks_some_some (l c : Coordinate) :
    breaksContiguity (some l) (some c) = true ↔ l.add 1 ≠ c := by
  obtain ⟨lp, ln⟩ := l
  obtain ⟨cp, cl⟩ := c
  simp only [breaksContiguity, Coordinate.add, ne_eq, Coordinate.mk.injEq,
    Bool.not_eq_true', Bool.and_eq_false_iff]
  constructor
  · intro h hand
    rcases h with h | h
    · exact absurd hand.1 (by simpa using h)
    · exact absurd hand.2 (by simpa using h)
  · intro h
    by_cases h1 : lp = cp
    · right
      by_cases h2 : ln + 1 = cl
      · exact absurd ⟨h1, h2⟩ h
      · simpa using h2
    · left
      simpa using h1

theorem outputAux_contig (fname : String) (p : String) :
    ∀ (ll : LineList) (n line : Int),
      ContiguousFrom p (n + 1) ll →
      outputAux fname line (some ⟨p, n⟩) ll = ll.map Entry.text := by
  intro ll
  induction ll with
  | nil => intro n line _; rfl
  | cons e rest ih =>
    intro n line h
    obtain ⟨ec, etext⟩ := e
    obtain ⟨h1, h2⟩ := h
    simp only at h1
    subst h1
    rw [outputAux]
    rw [if_neg (by simp [Coordinate.add])]
    rw [ih (n + 1) (line + 1) h2]
    rfl

theorem outputAux_eq_join (fname : String) :
    ∀ (ll : LineList) (line : Int) (last : Option Coordinate),
      outputAux fname line last ll = (outputBlocks fname line last ll).join := by
  intro ll
  induction ll with
  | nil => intros; rfl
  | cons e rest ih =>
    intro line last
    obtain ⟨ec, etext⟩ := e
    match ec with
    | none =>
      by_cases h : last.isSome = true
      · simp [outputAux, outputBlocks, h, ih]
      · simp [outputAux, outputBlocks, h, ih]
    | some c =>
      match last with
      | none => simp [outputAux, outputBlocks, ih]
      | some l =>
        by_cases h : l.add 1 ≠ c
        · simp [outputAux, outputBlocks, h, ih]
        · simp [outputAux, outputBlocks, h, ih]

theorem outputBlocks_spec (fname : String) :
    ∀ (ll : LineList) (line : Int) (last : Option Coordinate),
      List.Forall₂ BlockSpec ((prevsFrom last ll).zip ll)
        (outputBlocks fname line last ll) := by
  intro ll
  induction ll with
  | nil => intros; exact List.Forall₂.nil
  | cons e rest ih =>
    intro line last
    obtain ⟨ec, etext⟩ := e
    rw [prevsFrom]
    match ec, last with
    | none, none =>
      rw [outputBlocks]
      simp only [Option.isSome_none, Bool.false_eq_true, if_neg, ite_false]
      exact List.Forall₂.cons (by simp [BlockSpec, breaksContiguity]) (ih _ _)
    | none, some l =>
      rw [outputBlocks]
      simp only [Option.isSome_some, ite_true]
      refine List.Forall₂.cons ?_ (ih _ _)
      simp only [BlockSpec, breaksContiguity, if_pos]
      exact ⟨resetDirective (line + 1) fname, rfl⟩
    | some c, none =>
      rw [outputBlocks]
      refine List.Forall₂.cons ?_ (ih _ _)
      simp only [BlockSpec, breaksContiguity, if_pos]
      exact ⟨c.line, rfl⟩
    | some c, some l =>
      rw [outputBlocks]
      by_cases h : l.add 1 ≠ c
      · rw [if_pos h]
        refine List.Forall₂.cons ?_ (ih _ _)
        have hb : breaksContiguity (some l) (some c) = true := (breaks_some_some l c).2 h
        simp only [BlockSpec, hb, if_pos]
        exact ⟨c.line, rfl⟩
      · rw [if_neg h]
        refine List.Forall₂.cons ?_ (ih _ _)
        have hb : breaksContiguity (some l) (some c) = false := by
          rcases hbc : breaksContiguity (some l) (some c) with _ | _
          · rfl
          · exact absurd ((breaks_some_some l c).1 hbc) h
        simp [BlockSpec, hb]

/-- C1: a non-empty `LineList` whose entries are all located on one path
with strictly contiguous line numbers serializes to exactly one `#line`
directive — the first entry's — followed by all texts in order; and in
general the output decomposes into one block per entry, with a fresh
`#line` directive present exactly when contiguity breaks against the
previous entry (path change, non-contiguous jump, first located entry, or
located-to-unlocated transition). -/
theorem output_line_directives (fname : String) :
    (∀ (p : String) (n : Int) (e : Entry) (rest : LineList),
      ContiguousFrom p n (e :: rest) →
      LineList.output (e :: rest) fname =
        Coordinate.line ⟨p, n⟩ :: (e :: rest).map Entry.text) ∧
    (∀ ll : LineList,
      LineList.output ll fname = (outputBlocks fname 1 none ll).join ∧
      List.Forall₂ BlockSpec ((prevsFrom none ll).zip ll)
        (outputBlocks fname 1 none ll)) := by
  constructor
  · intro p n e rest h
    obtain ⟨ec, etext⟩ := e
    obtain ⟨h1, h2⟩ := h
    simp only at h1
    subst h1
    rw [LineList.output, outputAux]
    rw [outputAux_contig fname p rest n (1 + 1 + 1) h2]
    rfl
  · intro ll
    exact ⟨outputAux_eq_join fname ll 1 none, outputBlocks_spec fname ll 1 none⟩

/-- C1 witness: a concrete contiguous two-line list emits a single leading
directive, and a concrete list with breaks matches the block description. -/
theorem output_line_directives_witness :
    LineList.output [⟨some ⟨"f.c", 5⟩, "a"⟩, ⟨some ⟨"f.c", 6⟩, "b"⟩] "out.c" =
      ["#line 5 \"f.c\"", "a", "b"] := by
  have h := (output_line_directives "out.c").1 "f.c" 5 ⟨some ⟨"f.c", 5⟩, "a"⟩
    [⟨some ⟨"f.c", 6⟩, "b"⟩] ⟨rfl, rfl, trivial⟩
  exact h

/-! ### Claim C5: %fixture / %teardown chaining -/

theorem dictGet_map_set {α : Type} (k : String) (v : α) :
    ∀ m : List (String × α), m.any (fun p => p.1 == k) = true →
      dictGet (m.map (fun p => if p.1 == k then (k, v) else p)) k = some v := by
  intro m
  induction m with
  | nil => intro h; simp at h
  | cons p m ih =>
    intro h
    by_cases hp : (p.1 == k) = true
    · simp only [List.map_cons, if_pos hp]
      simp [dictGet, List.find?]
    · simp only [List.map_cons, if_neg hp]
      have h' : m.any (fun p => p.1 == k) = true := by
        simp only [List.any_cons, hp, Bool.false_or] at h
        exact h
      have hrec := ih h'
      simp only [dictGet, List.find?, hp] at hrec ⊢
      exact hrec

theorem dictGet_append_set {α : Type} (k : String) (v : α) :
    ∀ m : List (String × α), m.any (fun p => p.1 == k) = false →
      dictGet (m ++ [(k, v)]) k = some v := by
  intro m
  induction m with
  | nil => intro _; simp [dictGet, List.find?]
  | cons p m ih =>
    intro h
    simp only [List.any_cons, Bool.or_eq_false_iff] at h
    simp only [List.cons_append, dictGet, List.find?, h.1]
    have hrec := ih h.2
    simp only [dictGet] at hrec
    exact hrec

/-- Python-dict insert-or-overwrite stores the value retrievably. -/
theorem dictGet_dictSet {α : Type} (m : List (String × α)) (k : String) (v : α) :
    dictGet (dictSet m k v) k = some v := by
  unfold dictSet
  by_cases h : m.any (fun p => p.1 == k) = true
  · rw [if_pos h]
    exact dictGet_map_set k v m h
  · rw [if_neg h]
    have h' : m.any (fun p => p.1 == k) = false := by
      rcases hh : m.any (fun p => p.1 == k) <;> simp_all
    exact dictGet_append_set k v m h'

/-- C5: a `%fixture` continuation invoked with the closing tokens
`[WORD teardown, CHAR open-brace]` chains — it saves the main body and
returns its bound `teardown` method — and the subsequent close stores, in
the fixtures map under the fixture's name, a `Fixture` carrying both the
main body and the teardown body. -/
theorem fixture_teardown_chain (st : FixtureDirectiveState)
    (fixtures : List (String × Fixture)) (end1 end2 : Coordinate)
    (buf1 buf2 : LineList) (hpath : st.start_coord.path = end2.path) :
    fixtureStep (.call st) fixtures end1 buf1 (some teardown_toks) =
      .ok (fixtures, some (.teardown { st with code := some buf1, block_start := end1 })) ∧
    ∃ (fixtures' : List (String × Fixture)) (r : CoordinateRange),
      fixtureStep (.teardown { st with code := some buf1, block_start := end1 })
        fixtures end2 buf2 (some []) = .ok (fixtures', none) ∧
      dictGet fixtures' st.name = some ⟨r, st.name, st.type_, buf1, some buf2⟩ := by
  obtain ⟨r, hr⟩ : ∃ r, st.start_coord.subCoord end2 = some r := by
    unfold Coordinate.subCoord
    rw [if_pos hpath]
    dsimp only
    split <;> exact ⟨_, rfl⟩
  constructor
  · simp [fixtureStep, teardown_toks]
  · refine ⟨dictSet fixtures st.name ⟨r, st.name, st.type_, buf1, some buf2⟩, r, ?_, ?_⟩
    · simp [fixtureStep, hr]
    · exact dictGet_dictSet fixtures st.name _

/-- C5 witness: the chain at a concrete fixture state and bodies. -/
theorem fixture_teardown_chain_witness :
    fixtureStep (.call ⟨"myfix", some "int", ⟨"f", 1⟩, ⟨"f", 1⟩, none⟩) [] ⟨"f", 3⟩
        [⟨some ⟨"f", 2⟩, "x"⟩] (some teardown_toks) =
      .ok ([], some (.teardown ⟨"myfix", some "int", ⟨"f", 1⟩, ⟨"f", 3⟩,
        some [⟨some ⟨"f", 2⟩, "x"⟩]⟩)) ∧
    ∃ (fixtures' : List (String × Fixture)) (r : CoordinateRange),
      fixtureStep (.teardown ⟨"myfix", some "int", ⟨"f", 1⟩, ⟨"f", 3⟩,
          some [⟨some ⟨"f", 2⟩, "x"⟩]⟩) [] ⟨"f", 5⟩ [⟨some ⟨"f", 4⟩, "y"⟩] (some []) =
        .ok (fixtures', none) ∧
      dictGet fixtures' "myfix" =
        some ⟨r, "myfix", some "int", [⟨some ⟨"f", 2⟩, "x"⟩], some [⟨some ⟨"f", 4⟩, "y"⟩]⟩ :=
  fixture_teardown_chain ⟨"myfix", some "int", ⟨"f", 1⟩, ⟨"f", 1⟩, none⟩ [] ⟨"f", 3⟩
    ⟨"f", 5⟩ [⟨some ⟨"f", 2⟩, "x"⟩] [⟨some ⟨"f", 4⟩, "y"⟩] rfl

/-! ### Claim C10: parsing an empty stream -/

/-- C10: parsing an empty input stream succeeds with no error and returns
exactly the value map seeded from the registered directives' initial
values — `target` bound to `None`, an empty preamble list, and empty
tests, mocks and fixtures maps; no directive needs to be present. -/
theorem parse_empty_spec (path : String) :
    HypoParser_parse path [] = .ok HypoParser_values ∧
    HypoParser_values =
      { target := target_init, preamble := preamble_init (), tests := tests_init (),
        mocks := mocks_init (), fixtures := fixtures_init () } ∧
    HypoParser_values = ⟨none, [], [], [], []⟩ :=
  ⟨rfl, rfl, rfl⟩

/-! ### Claim C4: section rendering -/

theorem takeWhile_append_all {p : Char → Bool} :
    ∀ {l1 : List Char}, (∀ c ∈ l1, p c = true) →
      ∀ l2, (l1 ++ l2).takeWhile p = l1 ++ l2.takeWhile p := by
  intro l1
  induction l1 with
  | nil => intro _ l2; simp
  | cons a l1 ih =>
    intro h l2
    have ha : p a = true := h a (by simp)
    simp only [List.cons_append, List.takeWhile_cons, ha, if_pos]
    rw [ih (fun c hc => h c (by simp [hc])) l2]

theorem identStart_not_space {c : Char} (h : isIdentStart c = true) :
    isPySpace c = false := by
  rcases hsp : isPySpace c
  · rfl
  · exfalso
    have h6 : c = ' ' ∨ c = '\t' ∨ c = '\n' ∨ c = '\x0d' ∨ c = '\x0b' ∨ c = '\x0c' := by
      simpa [isPySpace, or_assoc] using hsp
    rcases h6 with rfl | rfl | rfl | rfl | rfl | rfl <;> simp [isIdentStart] at h

theorem matchExpando_exact {ident rest : List Char}
    (hne : ident ≠ []) (hall : ∀ c ∈ ident, isIdentChar c = true)
    (hstart : ∀ c, ident.head? = some c → isIdentStart c = true) :
    matchExpando ('{' :: '{' :: (ident ++ '}' :: '}' :: rest)) =
      some (String.mk ident, rest) := by
  match ident, hne with
  | c0 :: tl, _ =>
    have hs0 : isIdentStart c0 = true := hstart c0 rfl
    have hns : isPySpace c0 = false := identStart_not_space hs0
    have hdw : ((c0 :: tl) ++ '}' :: '}' :: rest).dropWhile isPySpace =
        (c0 :: tl) ++ '}' :: '}' :: rest := by
      simp [List.dropWhile_cons, hns]
    have htw : ((c0 :: tl) ++ '}' :: '}' :: rest).takeWhile isIdentChar = c0 :: tl := by
      rw [takeWhile_append_all hall]
      simp [List.takeWhile_cons, (by decide : isIdentChar '}' = false)]
    rw [matchExpando]
    rw [if_pos ⟨rfl, rfl⟩]
    rw [hdw]
    show expandoIdent (c0 :: (tl ++ '}' :: '}' :: rest)) = _
    rw [expandoIdent]
    rw [if_pos hs0]
    have hcons : c0 :: (tl ++ '}' :: '}' :: rest) = (c0 :: tl) ++ '}' :: '}' :: rest := by
      simp
    rw [hcons, htw]
    rw [show ((c0 :: tl) ++ '}' :: '}' :: rest).drop (c0 :: tl).length =
        '}' :: '}' :: rest from List.drop_left _ _]
    rw [show ('}' :: '}' :: rest).dropWhile isPySpace = '}' :: '}' :: rest by
      simp [List.dropWhile_cons, (by decide : isPySpace '}' = false)]]
    rw [expandoClose]
    rw [if_pos ⟨rfl, rfl⟩]

/-- C4: a section with a required variable missing from the keyword
arguments renders to nothing (no error, no contribution); with all
required variables present the body renders entry by entry: an ordinary
line has each `SUBST_RE` expando replaced by the bound string and keeps
its own coordinate, while a `#replace var` line is replaced by the ordered
lines bound to `var`, each spliced line carrying a null coordinate. -/
theorem section_render_spec (sec : TmplSection) (kwargs : List (String × PyVal)) :
    ((∃ r ∈ sec.requires, kwGet kwargs r = none) → sec.render kwargs = .ok none) ∧
    (∀ blocks : List LineList,
      sec.contents.mapM (renderEntry kwargs) = .ok blocks →
      (∀ r ∈ sec.requires, (kwGet kwargs r).isSome = true) →
      sec.render kwargs = .ok (some blocks.join)) ∧
    (∀ e : Entry, ¬pyStartswith e.text "#replace" = true →
      ∀ cs : List Char, substLine kwargs e.text.toList = .ok cs →
      renderEntry kwargs e = .ok [⟨e.coord, String.mk cs⟩]) ∧
    (∀ (e : Entry) (var : String) (ls : List String),
      pyStartswith e.text "#replace" = true →
      (pySplit e.text.toList).get? 1 = some var →
      kwGet kwargs var = some (.strList ls) →
      renderEntry kwargs e = .ok (ls.map (fun line => ⟨none, line⟩))) ∧
    (∀ (ident : List Char) (v : String) (rest : List Char),
      ident ≠ [] →
      (∀ c ∈ ident, isIdentChar c = true) →
      (∀ c, ident.head? = some c → isIdentStart c = true) →
      kwGet kwargs (String.mk ident) = some (.str v) →
      substLine kwargs ('{' :: '{' :: (ident ++ '}' :: '}' :: rest)) =
        (substLine kwargs rest).map (fun t => v.toList ++ t)) := by
  refine ⟨?_, ?_, ?_, ?_, ?_⟩
  · rintro ⟨r, hr, hnone⟩
    rw [TmplSection.render, if_pos]
    exact List.any_eq_true.2 ⟨r, hr, by simp [hnone]⟩
  · intro blocks hmap hall
    rw [TmplSection.render, if_neg]
    · rw [hmap]
      rfl
    · intro hany
      obtain ⟨r, hr, hisnone⟩ := List.any_eq_true.1 hany
      have := hall r hr
      rcases hk : kwGet kwargs r with _ | v
      · rw [hk] at this; cases this
      · rw [hk] at hisnone; cases hisnone
  · intro e hrep cs hsub
    rw [renderEntry, if_neg hrep, hsub]
    rfl
  · intro e var ls hrep hvar hbind
    rw [renderEntry, if_pos hrep, hvar]
    dsimp only
    rw [hbind]
  · intro ident v rest hne hall hstart hbind
    have hm := @matchExpando_exact ident rest hne hall hstart
    rw [substLine]
    rw [hm]
    dsimp only
    rw [hbind]
    rcases hrest : substLine kwargs rest with e' | t <;>
      simp [Except.map, hrest, Bind.bind, Except.bind]

/-- C4 witness: a concrete section with a missing required variable
renders to nothing; with bindings present, a `#replace` line splices the
bound lines with null coordinates and an ordinary line keeps its own
coordinate; a concrete expando substitutes the bound string. -/
theorem section_render_spec_witness :
    TmplSection.render ⟨⟨"t", 1, 2⟩, "s", ["bar"], [⟨none, "x"⟩]⟩ [] = .ok none ∧
    TmplSection.render ⟨⟨"t", 1, 4⟩, "sect", ["bar"],
        [⟨some ⟨"t", 5⟩, ""⟩, ⟨some ⟨"t", 6⟩, "#replace foo"⟩]⟩
      [("foo", .strList ["s1", "s2"]), ("bar", .str "baz")] =
      .ok (some [⟨some ⟨"t", 5⟩, ""⟩, ⟨none, "s1"⟩, ⟨none, "s2"⟩]) ∧
    substLine [("bar", .str "baz")] ('{' :: '{' :: ("bar".toList ++ '}' :: '}' :: [])) =
      .ok ("baz".toList) := by
  refine ⟨?_, ?_, ?_⟩
  · exact (section_render_spec _ _).1 ⟨"bar", by simp, rfl⟩
  · have hspec := section_render_spec
      ⟨⟨"t", 1, 4⟩, "sect", ["bar"],
        [⟨some ⟨"t", 5⟩, ""⟩, ⟨some ⟨"t", 6⟩, "#replace foo"⟩]⟩
      [("foo", .strList ["s1", "s2"]), ("bar", .str "baz")]
    have h1 : renderEntry [("foo", .strList ["s1", "s2"]), ("bar", .str "baz")]
        ⟨some ⟨"t", 5⟩, ""⟩ = .ok [⟨some ⟨"t", 5⟩, ""⟩] :=
      hspec.2.2.1 ⟨some ⟨"t", 5⟩, ""⟩ (by decide) [] (by simp [substLine])
    have h2 : renderEntry [("foo", .strList ["s1", "s2"]), ("bar", .str "baz")]
        ⟨some ⟨"t", 6⟩, "#replace foo"⟩ = .ok [⟨none, "s1"⟩, ⟨none, "s2"⟩] :=
      hspec.2.2.2.1 ⟨some ⟨"t", 6⟩, "#replace foo"⟩ "foo" ["s1", "s2"]
        (by decide) (by decide) rfl
    have hmap : List.mapM (renderEntry
        [("foo", .strList ["s1", "s2"]), ("bar", .str "baz")])
        [⟨some ⟨"t", 5⟩, ""⟩, ⟨some ⟨"t", 6⟩, "#replace foo"⟩] =
        .ok [[⟨some ⟨"t", 5⟩, ""⟩], [⟨none, "s1"⟩, ⟨none, "s2"⟩]] := by
      simp only [List.mapM, List.mapM.loop, h1, h2]
      rfl
    exact hspec.2.1 [[⟨some ⟨"t", 5⟩, ""⟩], [⟨none, "s1"⟩, ⟨none, "s2"⟩]] hmap (by decide)
  · have h5 := (section_render_spec ⟨⟨"t", 1, 1⟩, "s", [], []⟩
      [("bar", .str "baz")]).2.2.2.2 ("bar".toList) "baz" [] (by decide) (by decide)
      (by intro c hc; cases hc; decide) rfl
    rw [h5]
    simp [substLine, Except.map]

/-! ### Claim C2: error kinds and locations -/

theorem str_append_empty (s : String) : s ++ "" = s := by
  cases s with
  | mk l =>
    show String.mk (l ++ []) = String.mk l
    rw [List.append_nil]

theorem hasLoc_of_coord {path : String} (pre : String) (c : Coordinate)
    (hp : c.path = path) : HasLoc path (pre ++ c.str) := by
  refine ⟨c.lno, pre, "", ?_⟩
  rw [str_append_empty, Coordinate.str, hp]

theorem locParseErr_hasLoc {path : String} {e : PyErr} (h : LocParseErr path e) :
    ∃ msg, e = .parseExc msg ∧ HasLoc path msg := by
  obtain ⟨pre, c, he, hp⟩ := h
  exact ⟨pre ++ c.str, he, hasLoc_of_coord pre c hp⟩

theorem locErr_mk {path : String} (pre : String) (c : Coordinate) (hp : c.path = path) :
    LocParseErr path (.parseExc (pre ++ c.str)) :=
  ⟨pre, c, rfl, hp⟩

theorem subCoord_self (c : Coordinate) :
    c.subCoord c = some ⟨c.path, c.lno, c.lno⟩ := by
  unfold Coordinate.subCoord
  rw [if_pos rfl]
  dsimp only
  rw [if_neg (lt_irrefl _)]

theorem subCoord_of_path {a b : Coordinate} (h : a.path = b.path) :
    ∃ r, a.subCoord b = some r := by
  unfold Coordinate.subCoord
  rw [if_pos h]
  dsimp only
  split <;> exact ⟨_, rfl⟩

theorem tokenize_locErr {path : String} {text : String} {coord : Coordinate} {e : PyErr}
    (h : tokenize text coord = .error e) (hp : coord.path = path) :
    LocParseErr path e := by
  rw [tokenizeAux_error_msg coord text.toList none "" e h]
  exact locErr_mk _ coord hp

theorem error_bind_eq {α β : Type} {e eo : PyErr} {f : α → Except PyErr β}
    (h : (Except.error eo >>= f) = Except.error e) : eo = e := by
  simp only [Bind.bind, Except.bind] at h
  cases h
  rfl

theorem ok_bind {α β : Type} (a : α) (f : α → Except PyErr β) :
    (Except.ok a >>= f) = f a := by
  simp only [Bind.bind, Except.bind]

theorem make_typeAux_error (directive : String) (coord : Coordinate) :
    ∀ (toks : List Token) (last : Option Token) (acc : List String) (e : PyErr),
      make_typeAux directive coord last acc toks = .error e →
      e = .parseExc ("Invalid %" ++ directive ++ " directive at " ++ coord.str) := by
  intro toks
  induction toks with
  | nil => intro last acc e h; cases h
  | cons tok rest ih =>
    intro last acc e h
    rw [make_typeAux.eq_def] at h
    dsimp only at h
    split at h
    · cases h; rfl
    · split at h
      · exact ih _ _ _ h
      · exact ih _ _ _ h

theorem make_type_locErr {path : String} {toks : List Token} {directive : String}
    {coord : Coordinate} {e : PyErr}
    (h : make_type toks directive coord = .error e) (hp : coord.path = path) :
    LocParseErr path e := by
  rw [make_type] at h
  rcases haux : make_typeAux directive coord none [] toks with eo | t <;>
    rw [haux] at h
  · cases error_bind_eq h
    rw [make_typeAux_error directive coord toks none [] _ haux]
    exact locErr_mk _ coord hp
  · rw [ok_bind] at h
    cases h

theorem mockArgsLoop_locErr {path : String} {sc : Coordinate} (hp : sc.path = path) :
    ∀ (l : List (List Token × Option Token × Option Token)) (endE : Bool)
      (args : List HypoMockArg) (e : PyErr),
      mockArgsLoop sc endE args l = .error e → LocParseErr path e := by
  intro l
  induction l with
  | nil => intro endE args e h; cases h
  | cons p rest ih =>
    intro endE args e h
    obtain ⟨type_, name, delim⟩ := p
    rw [mockArgsLoop] at h
    split at h
    · split at h
      · cases h; exact locErr_mk _ sc hp
      · exact ih _ _ _ h
    · split at h
      · cases h; exact locErr_mk _ sc hp
      · split at h
        · exact ih _ _ _ h
        · split at h
          · cases h; exact locErr_mk _ sc hp
          · rcases hmt : make_type type_ "mock" sc with eo | t <;> rw [hmt] at h
            · cases error_bind_eq h
              exact make_type_locErr hmt hp
            · rw [ok_bind] at h
              exact ih _ _ _ h

theorem mockParse_locErr {path : String} {sc : Coordinate} {toks : List Token} {e : PyErr}
    (h : mockParse sc toks = .error e) (hp : sc.path = path) : LocParseErr path e := by
  rw [mockParse] at h
  split at h
  · cases h; exact locErr_mk _ sc hp
  · rename_i type_ name delim rest heq
    split at h
    · cases h; exact locErr_mk _ sc hp
    · rcases hmt : make_type type_ "mock" sc with eo | t <;> rw [hmt] at h
      · cases error_bind_eq h
        exact make_type_locErr hmt hp
      · rw [ok_bind] at h
        rcases hargs : mockArgsLoop sc false [] rest with eo | args <;>
          rw [hargs] at h
        · cases error_bind_eq h
          exact mockArgsLoop_locErr hp rest false [] _ hargs
        · rw [ok_bind] at h
          rw [subCoord_self sc] at h
          cases h

theorem map_error_eq {α β : Type} {g : α → β} {x : Except PyErr α} {e : PyErr}
    (h : (g <$> x) = .error e) : x = .error e := by
  cases x with
  | error e0 =>
    simp only [Functor.map, Except.map] at h
    cases h
    rfl
  | ok a => simp [Functor.map, Except.map] at h

theorem splitToksAux_ne_nil (delims : List Token) :
    ∀ (toks stack : List Token), splitToksAux delims stack toks ≠ [] := by
  intro toks
  induction toks with
  | nil => intro stack; simp [splitToksAux]
  | cons t rest ih =>
    intro stack
    rw [splitToksAux]
    split
    · simp
    · exact ih _

theorem extract_type_ne_nil (toks delims : List Token) : extract_type toks delims ≠ [] := by
  unfold extract_type splitToksD
  intro h
  rw [List.map_eq_nil] at h
  exact splitToksAux_ne_nil delims toks [] h

theorem fixtureInitLoop_locErr {path : String} {sc : Coordinate} (hp : sc.path = path) :
    ∀ (l : List (List Token × Option Token × Option Token))
      (st? : Option FixtureDirectiveState) (e : PyErr),
      fixtureInitLoop sc st? l = .error e → LocParseErr path e := by
  intro l
  induction l with
  | nil =>
    intro st? e h
    rw [fixtureInitLoop] at h
    cases h
  | cons p rest ih =>
    intro st? e h
    obtain ⟨type_, name, delim⟩ := p
    match st? with
    | some st0 =>
      rw [fixtureInitLoop] at h
      split at h
      · cases h; exact locErr_mk _ sc hp
      · exact ih _ _ h
    | none =>
      rw [fixtureInitLoop] at h
      split at h
      · cases h; exact locErr_mk _ sc hp
      · split at h
        · cases h; exact locErr_mk _ sc hp
        · split at h
          next eo htp =>
            cases h
            split at htp
            · cases htp
            · exact make_type_locErr (map_error_eq htp) hp
          next v htp => exact ih _ _ h

theorem fixtureInitLoop_fields {sc : Coordinate} :
    ∀ (l : List (List Token × Option Token × Option Token))
      (st? : Option FixtureDirectiveState) (st : FixtureDirectiveState),
      fixtureInitLoop sc st? l = .ok (some st) →
      st? = some st ∨ (st.start_coord = sc ∧ st.block_start = sc) := by
  intro l
  induction l with
  | nil =>
    intro st? st h
    rw [fixtureInitLoop] at h
    cases h
    exact Or.inl rfl
  | cons p rest ih =>
    intro st? st h
    obtain ⟨type_, name, delim⟩ := p
    match st? with
    | some st0 =>
      rw [fixtureInitLoop] at h
      split at h
      · cases h
      · rcases ih _ _ h with heq | hf
        · exact Or.inl heq
        · exact Or.inr hf
    | none =>
      rw [fixtureInitLoop] at h
      split at h
      · cases h
      · split at h
        · cases h
        · split at h
          next eo htp => cases h
          next v htp =>
            rcases ih _ _ h with heq | hf
            · cases heq
              exact Or.inr ⟨rfl, rfl⟩
            · exact Or.inr hf

theorem fixtureInitLoop_not_none {sc : Coordinate} :
    ∀ (l : List (List Token × Option Token × Option Token))
      (st? : Option FixtureDirectiveState),
      fixtureInitLoop sc st? l = .ok none → st? = none ∧ l = [] := by
  intro l
  induction l with
  | nil =>
    intro st? h
    rw [fixtureInitLoop] at h
    cases h
    exact ⟨rfl, rfl⟩
  | cons p rest ih =>
    intro st? h
    obtain ⟨type_, name, delim⟩ := p
    exfalso
    match st? with
    | some st0 =>
      rw [fixtureInitLoop] at h
      split at h
      · cases h
      · exact Option.noConfusion (ih _ h).1
    | none =>
      rw [fixtureInitLoop] at h
      split at h
      · cases h
      · split at h
        · cases h
        · split at h
          next eo htp => cases h
          next v htp => exact Option.noConfusion (ih _ h).1

theorem testFixturesLoop_locErr {path : String} {sc : Coordinate} (hp : sc.path = path) :
    ∀ (l : List (List Token)) (e : PyErr),
      testFixturesLoop sc l = .error e → LocParseErr path e := by
  intro l
  induction l with
  | nil => intro e h; cases h
  | cons fix_toks rest ih =>
    intro e h
    rw [testFixturesLoop] at h
    split at h
    · cases h; exact locErr_mk _ sc hp
    · dsimp only at h
      by_cases hbang : fix_toks.head? = some ({ type_ := .char, value := "!" } : Token)
      · rw [if_pos hbang] at h
        split at h
        · cases h; exact locErr_mk _ sc hp
        · rcases hrec : testFixturesLoop sc rest with eo | v <;> rw [hrec] at h
          · cases error_bind_eq h
            exact ih _ hrec
          · rw [ok_bind] at h
            cases h
      · rw [if_neg hbang] at h
        split at h
        · cases h; exact locErr_mk _ sc hp
        · rcases hrec : testFixturesLoop sc rest with eo | v <;> rw [hrec] at h
          · cases error_bind_eq h
            exact ih _ hrec
          · rw [ok_bind] at h
            cases h

theorem testFixtures_locErr {path : String} {sc : Coordinate} {toks : List Token} {e : PyErr}
    (h : testFixtures sc toks = .error e) (hp : sc.path = path) : LocParseErr path e := by
  rw [testFixtures] at h
  split at h
  · cases h; exact locErr_mk _ sc hp
  · exact testFixturesLoop_locErr hp _ _ h

/-- Error-location and deferred-invariant facts of the directive dispatch. -/
theorem runDirective_spec {path : String} (values : HypoValues) (dir_coord : Coordinate)
    (name : String) (toks : List Token) (hc : dir_coord.path = path) :
    (∀ e, runDirective values dir_coord name toks = .error e → LocParseErr path e) ∧
    (∀ v' d', runDirective values dir_coord name toks = .ok (v', d') →
      ∀ dd, d' = some dd → DefInv path dd) := by
  rw [runDirective]
  split
  · -- target
    constructor
    · intro e h
      split at h
      · cases h; exact locErr_mk _ dir_coord hc
      · cases h
    · intro v' d' h dd hdd
      split at h
      · cases h
      · cases h; cases hdd
  · split
    · -- preamble
      constructor
      · intro e h
        split at h
        · cases h; exact locErr_mk _ dir_coord hc
        · cases h
      · intro v' d' h dd hdd
        split at h
        · cases h
        · cases h; cases hdd
          exact hc
    · split
      · -- mock
        constructor
        · intro e h
          rcases hm : mockParse dir_coord toks with eo | m <;> rw [hm] at h
          · cases error_bind_eq h
            exact mockParse_locErr hm hc
          · rw [ok_bind] at h
            cases h
        · intro v' d' h dd hdd
          rcases hm : mockParse dir_coord toks with eo | m <;> rw [hm] at h
          · rw [show (Except.error eo >>= fun m => Except.ok
                ({ values with mocks := dictSet values.mocks m.name m }, none)) =
                (Except.error eo : Except PyErr (HypoValues × Option Deferred)) from rfl] at h
            cases h
          · rw [ok_bind] at h
            cases h; cases hdd
      · split
        · -- test
          constructor
          · intro e h
            split at h
            · cases h; exact locErr_mk _ dir_coord hc
            · split at h
              next eo hf =>
                cases h
                split at hf
                · exact testFixtures_locErr hf hc
                · cases hf
              next fixtures hf => cases h
          · intro v' d' h dd hdd
            split at h
            · cases h
            · split at h
              next eo hf => cases h
              next fixtures hf =>
                cases h; cases hdd
                exact hc
        · -- fixture
          constructor
          · intro e h
            rcases hf : fixtureInit dir_coord toks with eo | st? <;> rw [hf] at h
            · cases error_bind_eq h
              rw [fixtureInit] at hf
              exact fixtureInitLoop_locErr hc _ _ _ hf
            · rw [ok_bind] at h
              match st?, h with
              | some st, h => cases h
              | none, h =>
                exfalso
                rw [fixtureInit] at hf
                exact extract_type_ne_nil toks _ (fixtureInitLoop_not_none _ _ hf).2
          · intro v' d' h dd hdd
            rcases hf : fixtureInit dir_coord toks with eo | st? <;> rw [hf] at h
            · simp only [Bind.bind, Except.bind] at h
              cases h
            · rw [ok_bind] at h
              match st?, h, hf with
              | some st, h, hf =>
                cases h; cases hdd
                rw [fixtureInit] at hf
                rcases fixtureInitLoop_fields _ _ _ hf with heq | hfld
                · cases heq
                · constructor
                  · rw [hfld.1]; exact hc
                  · rw [hfld.2]; exact hc
              | none, h, _ => cases h

/-- Error-location and invariant facts of the `%fixture` continuation. -/
theorem fixtureStep_spec {path : String} (c : FixtureCont)
    (fixtures : List (String × Fixture)) (end_coord : Coordinate) (buf : LineList)
    (toks : Option (List Token)) (hd : DefInv path (.fixture c))
    (hend : end_coord.path = path) :
    (∀ e, fixtureStep c fixtures end_coord buf toks = .error e → LocParseErr path e) ∧
    (∀ f' c', fixtureStep c fixtures end_coord buf toks = .ok (f', c') →
      ∀ cc, c' = some cc → DefInv path (.fixture cc)) := by
  match c, toks with
  | .call st, none =>
    obtain ⟨hsp, hbp⟩ := hd
    refine ⟨fun e h => ?_, fun f' c' h cc hcc => ?_⟩
    · rw [fixtureStep] at h
      cases h
      exact locErr_mk _ st.block_start hbp
    · rw [fixtureStep] at h
      cases h
  | .call st, some toksl =>
    obtain ⟨hsp, hbp⟩ := hd
    obtain ⟨r, hr⟩ : ∃ r, st.start_coord.subCoord end_coord = some r :=
      subCoord_of_path (hsp.trans hend.symm)
    refine ⟨fun e h => ?_, fun f' c' h cc hcc => ?_⟩
    · rw [fixtureStep] at h
      split at h
      · cases h; exact locErr_mk _ end_coord hend
      · split at h
        · cases h
        · rw [hr] at h
          cases h
    · rw [fixtureStep] at h
      split at h
      · cases h
      · split at h
        · cases h
          cases hcc
          exact ⟨hsp, hend, rfl⟩
        · rw [hr] at h
          cases h
          cases hcc
  | .teardown st, none =>
    obtain ⟨hsp, hbp, hcode⟩ := hd
    refine ⟨fun e h => ?_, fun f' c' h cc hcc => ?_⟩
    · rw [fixtureStep] at h
      cases h
      exact locErr_mk _ st.block_start hbp
    · rw [fixtureStep] at h
      cases h
  | .teardown st, some toksl =>
    obtain ⟨hsp, hbp, hcode⟩ := hd
    obtain ⟨code, hc'⟩ := Option.isSome_iff_exists.mp hcode
    obtain ⟨r, hr⟩ : ∃ r, st.start_coord.subCoord end_coord = some r :=
      subCoord_of_path (hsp.trans hend.symm)
    refine ⟨fun e h => ?_, fun f' c' h cc hcc => ?_⟩
    · rw [fixtureStep] at h
      split at h
      · cases h; exact locErr_mk _ end_coord hend
      · rw [hc', hr] at h
        cases h
    · rw [fixtureStep] at h
      split at h
      · cases h
      · rw [hc', hr] at h
        cases h
        cases hcc

/-- Error-location and invariant facts of a deferred-continuation
invocation. -/
theorem runDeferred_spec {path : String} (d : Deferred) (values : HypoValues)
    (end_coord : Coordinate) (buf : LineList) (toks : Option (List Token))
    (hd : DefInv path d) (hend : end_coord.path = path) :
    (∀ e, runDeferred d values end_coord buf toks = .error e → LocParseErr path e) ∧
    (∀ v' d', runDeferred d values end_coord buf toks = .ok (v', d') →
      ∀ dd, d' = some dd → DefInv path dd) := by
  match d, toks with
  | .preamble sc, none =>
    refine ⟨fun e h => ?_, fun v' d' h dd hdd => ?_⟩
    · rw [runDeferred] at h
      cases h
      exact locErr_mk _ sc hd
    · rw [runDeferred] at h
      cases h
  | .preamble sc, some toksl =>
    obtain ⟨r, hr⟩ : ∃ r, sc.subCoord end_coord = some r :=
      subCoord_of_path (hd.trans hend.symm)
    refine ⟨fun e h => ?_, fun v' d' h dd hdd => ?_⟩
    · rw [runDeferred] at h
      split at h
      · cases h; exact locErr_mk _ end_coord hend
      · rw [hr] at h
        cases h
    · rw [runDeferred] at h
      split at h
      · cases h
      · rw [hr] at h
        cases h
        cases hdd
  | .test tname tfix sc, none =>
    refine ⟨fun e h => ?_, fun v' d' h dd hdd => ?_⟩
    · rw [runDeferred] at h
      cases h
      exact locErr_mk _ sc hd
    · rw [runDeferred] at h
      cases h
  | .test tname tfix sc, some toksl =>
    obtain ⟨r, hr⟩ : ∃ r, sc.subCoord end_coord = some r :=
      subCoord_of_path (hd.trans hend.symm)
    refine ⟨fun e h => ?_, fun v' d' h dd hdd => ?_⟩
    · rw [runDeferred] at h
      split at h
      · cases h; exact locErr_mk _ end_coord hend
      · rw [hr] at h
        cases h
    · rw [runDeferred] at h
      split at h
      · cases h
      · rw [hr] at h
        cases h
        cases hdd
  | .fixture c, toks =>
    have hstep := fixtureStep_spec c values.fixtures end_coord buf toks hd hend
    refine ⟨fun e h => ?_, fun v' d' h dd hdd => ?_⟩
    · rw [runDeferred] at h
      rcases hs : fixtureStep c values.fixtures end_coord buf toks with eo | ⟨f', c'⟩ <;>
        rw [hs] at h
      · cases h
        exact hstep.1 _ hs
      · cases h
    · rw [runDeferred] at h
      rcases hs : fixtureStep c values.fixtures end_coord buf toks with eo | ⟨f', c'⟩ <;>
        rw [hs] at h
      · cases h
      · cases h
        match c', hdd with
        | some cc0, hdd =>
          cases hdd
          exact hstep.2 _ _ hs cc0 rfl

/-- At end of file every deferred handler raises its own unclosed-directive
error, so the framework's location-free fallback is unreachable. -/
theorem runDeferred_eof (d : Deferred) (values : HypoValues) (coord : Coordinate)
    (buf : LineList) :
    ∃ e, runDeferred d values coord buf none = .error e := by
  match d with
  | .preamble sc => exact ⟨_, rfl⟩
  | .test tname tfix sc => exact ⟨_, rfl⟩
  | .fixture (.call st) => exact ⟨_, rfl⟩
  | .fixture (.teardown st) => exact ⟨_, rfl⟩

theorem error_bind {α β : Type} (eo : PyErr) (f : α → Except PyErr β) :
    (Except.error eo >>= f) = Except.error eo := rfl

theorem parse_directive_rest_spec {path : String} (st : ParserState) (coord : Coordinate)
    (line : List Char)
    (hstart : ∀ c0, st.start_coord = some c0 → c0.path = path)
    (hcont : st.continued = none) (hcomm : st.comment_pfx = none)
    (hc : coord.path = path) :
    (∀ e, parse_directive_rest st coord line = .error e → LocParseErr path e) ∧
    (∀ st' out, parse_directive_rest st coord line = .ok (st', out) →
      (∀ c0, st'.start_coord = some c0 → c0.path = path) ∧
      (st'.continued.isSome = true → st'.start_coord.isSome = true) ∧
      (st'.comment_pfx.isSome = true → st'.start_coord.isSome = true) ∧
      st'.deferred = st.deferred ∧ st'.buf = st.buf ∧
      st'.values = st.values ∧ st'.lines = st.lines ∧
      (∀ c0 toks, out = .dir c0 toks → c0.path = path)) := by
  have hcoordD : (st.start_coord.getD coord).path = path := by
    rcases hs0 : st.start_coord with _ | c1
    · exact hc
    · exact hstart c1 hs0
  constructor
  · intro e h
    rw [parse_directive_rest] at h
    split at h
    · cases h
    next line2 heq2 =>
      dsimp only at h
      split at h
      · cases h
      split at h
      · cases h
      split at h
      next =>
        cases h
        exact locErr_mk "Invalid directive at " _ hcoordD
      next =>
        rcases ht : tokenize (String.mk (pyStrip line2).tail) (st.start_coord.getD coord)
            with e0 | toks
        · rw [ht, error_bind] at h
          cases h
          exact tokenize_locErr ht hcoordD
        · rw [ht, ok_bind] at h
          cases h
  · intro st' out h
    rw [parse_directive_rest] at h
    split at h
    next pfx heq1 =>
      cases h
      refine ⟨?_, fun _ => rfl, fun _ => rfl, rfl, rfl, rfl, rfl, ?_⟩
      · intro c0 hc0
        cases hc0
        exact hcoordD
      · intro c0 toks habs; cases habs
    next line2 heq2 =>
      dsimp only at h
      split at h
      next =>
        cases h
        refine ⟨hstart, ?_, ?_, rfl, rfl, rfl, rfl, ?_⟩
        · intro habs; rw [hcont] at habs; exact absurd habs (by decide)
        · intro habs; rw [hcomm] at habs; exact absurd habs (by decide)
        · intro c0 toks habs; cases habs
      split at h
      next =>
        cases h
        refine ⟨?_, fun _ => rfl, fun _ => rfl, rfl, rfl, rfl, rfl, ?_⟩
        · intro c0 hc0
          cases hc0
          exact hcoordD
        · intro c0 toks habs; cases habs
      split at h
      next => cases h
      next =>
        rcases ht : tokenize (String.mk (pyStrip line2).tail) (st.start_coord.getD coord)
            with e0 | toks0
        · rw [ht, error_bind] at h
          cases h
        · rw [ht, ok_bind] at h
          cases h
          refine ⟨?_, ?_, ?_, rfl, rfl, rfl, rfl, ?_⟩
          · intro c0 hc0; cases hc0
          · intro habs; rw [hcont] at habs; exact absurd habs (by decide)
          · intro habs; rw [hcomm] at habs; exact absurd habs (by decide)
          · intro c0 toks1 hd
            cases hd
            exact hcoordD

theorem parse_directive_spec {path : String} (st : ParserState) (coord : Coordinate)
    (line0 : List Char) (hsc : SCInv path st) (hc : coord.path = path) :
    (∀ e, parse_directive st coord line0 = .error e → LocParseErr path e) ∧
    (∀ st' out, parse_directive st coord line0 = .ok (st', out) →
      (∀ c0, st'.start_coord = some c0 → c0.path = path) ∧
      (st'.continued.isSome = true → st'.start_coord.isSome = true) ∧
      (st'.comment_pfx.isSome = true → st'.start_coord.isSome = true) ∧
      st'.deferred = st.deferred ∧ st'.buf = st.buf ∧
      st'.values = st.values ∧ st'.lines = st.lines ∧
      (∀ c0 toks, out = .dir c0 toks → c0.path = path)) := by
  obtain ⟨hstart, hcontInv, hcommInv⟩ := hsc
  rcases hcp : st.comment_pfx with _ | pfx
  · have heq : parse_directive st coord line0 =
        parse_directive_rest { st with continued := none } coord
          (contLine st.continued line0) := by
      rw [parse_directive, hcp]
    rw [heq]
    have hspec := parse_directive_rest_spec { st with continued := none } coord
      (contLine st.continued line0) (fun c0 h0 => hstart c0 h0) rfl hcp hc
    refine ⟨hspec.1, fun st' out h => ?_⟩
    exact hspec.2 st' out h
  · rcases hfs : findSub ['*', '/'] (contLine st.continued line0) with _ | epos
    · have heq : parse_directive st coord line0 =
          .ok ({ st with continued := none }, .more) := by
        rw [parse_directive, hcp, hfs]
      rw [heq]
      constructor
      · intro e h
        cases h
      intro st' out h
      cases h
      refine ⟨fun c0 h0 => hstart c0 h0, ?_, ?_, rfl, rfl, rfl, rfl, ?_⟩
      · intro habs; simp at habs
      · intro _
        exact hcommInv (by rw [hcp]; rfl)
      · intro c0 toks habs; cases habs
    · have heq : parse_directive st coord line0 =
          parse_directive_rest { st with continued := none, comment_pfx := none } coord
            (pfx ++ ' ' :: (contLine st.continued line0).drop (epos + 2)) := by
        rw [parse_directive, hcp, hfs]
      rw [heq]
      have hspec := parse_directive_rest_spec
        { st with continued := none, comment_pfx := none } coord
        (pfx ++ ' ' :: (contLine st.continued line0).drop (epos + 2))
        (fun c0 h0 => hstart c0 h0) rfl rfl hc
      refine ⟨hspec.1, fun st' out h => ?_⟩
      exact hspec.2 st' out h

theorem parse_line_spec {path : String} (st0 : ParserState) (coord : Coordinate)
    (line : String) (hinv : StInv path st0) (hc : coord.path = path) :
    (∀ e, parse_line st0 coord line = .error e → LocParseErr path e) ∧
    (∀ st', parse_line st0 coord line = .ok st' → StInv path st') := by
  obtain ⟨hsc, hdef⟩ := hinv
  obtain ⟨hstart, hcontInv, hcommInv⟩ := hsc
  constructor
  · intro e h
    rw [parse_line] at h
    dsimp only at h
    rcases hd0 : st0.deferred with _ | d
    · simp only [hd0] at h
      have hpds := parse_directive_spec { st0 with deferred := none, lines := st0.lines + 1 }
        coord line.toList ⟨hstart, hcontInv, hcommInv⟩ hc
      rcases hpd : parse_directive { st0 with deferred := none, lines := st0.lines + 1 }
          coord line.toList with e0 | ⟨st', out⟩
      · rw [hpd, error_bind] at h
        cases h
        exact hpds.1 _ hpd
      · rw [hpd, ok_bind] at h
        obtain ⟨q1, q2, q3, q4, q5, q6, q7, q8⟩ := hpds.2 st' out hpd
        dsimp only at h
        rcases out with _ | ⟨dc, toks⟩
        · cases h
        rcases toks with _ | ⟨tok0, toksRest⟩
        · cases h
          exact locErr_mk "Invalid directive at " dc (q8 dc [] rfl)
        dsimp only at h
        split at h
        · cases h
          exact locErr_mk "Invalid directive at " dc (q8 dc _ rfl)
        rcases hrd : runDirective st'.values dc tok0.value toksRest with e1 | ⟨v', d'⟩
        · rw [hrd, error_bind] at h
          cases h
          exact (runDirective_spec st'.values dc tok0.value toksRest (q8 dc _ rfl)).1 _ hrd
        · rw [hrd, ok_bind] at h
          dsimp only at h
          cases h
    · simp only [hd0] at h
      split at h
      · have hpds := parse_directive_spec
          { st0 with deferred := some d, lines := st0.lines + 1 }
          coord line.toList ⟨hstart, hcontInv, hcommInv⟩ hc
        rcases hpd : parse_directive { st0 with deferred := some d, lines := st0.lines + 1 }
            coord line.toList with e0 | ⟨st', out⟩
        · rw [hpd, error_bind] at h
          cases h
          exact hpds.1 _ hpd
        · rw [hpd, ok_bind] at h
          obtain ⟨q1, q2, q3, q4, q5, q6, q7, q8⟩ := hpds.2 st' out hpd
          dsimp only at h
          rcases out with _ | ⟨dc, toks⟩
          · cases h
          dsimp only at h
          split at h
          · cases h
            exact locErr_mk "Invalid directive at " dc (q8 dc toks rfl)
          rcases hrd : runDeferred d st'.values dc (st'.buf.getD []) (some toks.tail)
              with e1 | ⟨v', d'⟩
          · rw [hrd, error_bind] at h
            cases h
            exact (runDeferred_spec d st'.values dc (st'.buf.getD []) (some toks.tail)
              (hdef d hd0) (q8 dc toks rfl)).1 _ hrd
          · rw [hrd, ok_bind] at h
            dsimp only at h
            cases h
      · cases h
  · intro stF h
    rw [parse_line] at h
    dsimp only at h
    rcases hd0 : st0.deferred with _ | d
    · simp only [hd0] at h
      have hpds := parse_directive_spec { st0 with deferred := none, lines := st0.lines + 1 }
        coord line.toList ⟨hstart, hcontInv, hcommInv⟩ hc
      rcases hpd : parse_directive { st0 with deferred := none, lines := st0.lines + 1 }
          coord line.toList with e0 | ⟨st', out⟩
      · rw [hpd, error_bind] at h
        cases h
      · rw [hpd, ok_bind] at h
        obtain ⟨q1, q2, q3, q4, q5, q6, q7, q8⟩ := hpds.2 st' out hpd
        have hq4 : st'.deferred = none := q4
        dsimp only at h
        rcases out with _ | ⟨dc, toks⟩
        · cases h
          refine ⟨⟨q1, q2, q3⟩, ?_⟩
          intro dd hdd
          rw [hq4] at hdd
          cases hdd
        rcases toks with _ | ⟨tok0, toksRest⟩
        · cases h
        dsimp only at h
        split at h
        · cases h
        rcases hrd : runDirective st'.values dc tok0.value toksRest with e1 | ⟨v', d'⟩
        · rw [hrd, error_bind] at h
          cases h
        · rw [hrd, ok_bind] at h
          dsimp only at h
          cases h
          refine ⟨⟨q1, q2, q3⟩, ?_⟩
          intro dd hdd
          exact (runDirective_spec st'.values dc tok0.value toksRest (q8 dc _ rfl)).2
            v' d' hrd dd hdd
    · simp only [hd0] at h
      split at h
      · have hpds := parse_directive_spec
          { st0 with deferred := some d, lines := st0.lines + 1 }
          coord line.toList ⟨hstart, hcontInv, hcommInv⟩ hc
        rcases hpd : parse_directive { st0 with deferred := some d, lines := st0.lines + 1 }
            coord line.toList with e0 | ⟨st', out⟩
        · rw [hpd, error_bind] at h
          cases h
        · rw [hpd, ok_bind] at h
          obtain ⟨q1, q2, q3, q4, q5, q6, q7, q8⟩ := hpds.2 st' out hpd
          have hq4 : st'.deferred = some d := q4
          dsimp only at h
          rcases out with _ | ⟨dc, toks⟩
          · cases h
            refine ⟨⟨q1, q2, q3⟩, ?_⟩
            intro dd hdd
            rw [hq4] at hdd
            cases hdd
            exact hdef d hd0
          dsimp only at h
          split at h
          · cases h
          rcases hrd : runDeferred d st'.values dc (st'.buf.getD []) (some toks.tail)
              with e1 | ⟨v', d'⟩
          · rw [hrd, error_bind] at h
            cases h
          · rw [hrd, ok_bind] at h
            dsimp only at h
            cases h
            refine ⟨⟨q1, q2, q3⟩, ?_⟩
            intro dd hdd
            exact (runDeferred_spec d st'.values dc (st'.buf.getD []) (some toks.tail)
              (hdef d hd0) (q8 dc toks rfl)).2 v' d' hrd dd hdd
      · cases h
        refine ⟨⟨hstart, hcontInv, hcommInv⟩, ?_⟩
        intro dd hdd
        have hdd' : some d = some dd := hdd
        cases hdd'
        exact hdef d hd0

theorem parseLines_spec {path : String} :
    ∀ (lines : List String) (st : ParserState) (lno : Nat), StInv path st →
      (∀ e, parseLines path st lno lines = .error e → LocParseErr path e) ∧
      (∀ st', parseLines path st lno lines = .ok st' → StInv path st') := by
  intro lines
  induction lines with
  | nil =>
    intro st lno hinv
    constructor
    · intro e h
      simp only [parseLines] at h
      cases h
    · intro st' h
      simp only [parseLines, Except.ok.injEq] at h
      subst h
      exact hinv
  | cons line rest ih =>
    intro st lno hinv
    have hps := parse_line_spec st ⟨path, (lno : Int) + 1⟩ line hinv rfl
    constructor
    · intro e h
      rw [parseLines] at h
      rcases hpl : parse_line st ⟨path, (lno : Int) + 1⟩ line with e0 | st1
      · rw [hpl, error_bind] at h
        cases h
        exact hps.1 _ hpl
      · rw [hpl, ok_bind] at h
        exact (ih st1 (lno + 1) (hps.2 st1 hpl)).1 e h
    · intro st' h
      rw [parseLines] at h
      rcases hpl : parse_line st ⟨path, (lno : Int) + 1⟩ line with e0 | st1
      · rw [hpl, error_bind] at h
        cases h
      · rw [hpl, ok_bind] at h
        exact (ih st1 (lno + 1) (hps.2 st1 hpl)).2 st' h

theorem parseFinish_spec {path : String} (st : ParserState) (hinv : StInv path st) :
    ∀ e, parseFinish path st = .error e → LocParseErr path e := by
  obtain ⟨⟨hstart, hcontInv, hcommInv⟩, hdef⟩ := hinv
  intro e h
  rw [parseFinish] at h
  split at h
  next hcs =>
    cases h
    have hs : st.start_coord.isSome = true := hcontInv hcs
    rcases hsc : st.start_coord with _ | c
    · rw [hsc] at hs
      exact absurd hs (by decide)
    · exact locErr_mk "Trailing directive continuation at end of file; starts at " c
        (hstart c hsc)
  next hcs =>
    split at h
    next hcp =>
      cases h
      have hs : st.start_coord.isSome = true := hcommInv hcp
      rcases hsc : st.start_coord with _ | c
      · rw [hsc] at hs
        exact absurd hs (by decide)
      · exact locErr_mk "Unclosed comment at end of file; starts at " c (hstart c hsc)
    next hcp =>
      split at h
      next d hd =>
        obtain ⟨e0, he0⟩ := runDeferred_eof d st.values ⟨path, (st.lines : Int)⟩ (st.buf.getD [])
        rw [he0, error_bind] at h
        cases h
        exact (runDeferred_spec d st.values ⟨path, (st.lines : Int)⟩ (st.buf.getD []) none
          (hdef d hd) rfl).1 _ he0
      next => cases h

theorem stripComments_no_marker {l : List Char} (h : commentPos l = none) :
    stripComments l = .done l := by
  rw [stripComments]
  split
  next => rfl
  next comment heq =>
    rw [h] at heq
    cases heq

/-- C2 (amended): every fatal error surfaced by parsing a test-definition
file is a `ParseException` whose message carries a `file:line` location on
the parsed path — in particular the unclosed-directive-at-end-of-file
errors, each deferred handler raising its own located message so that the
framework's location-free fallback is unreachable; the rendering half of
the original claim fails (see the counterexample). -/
theorem parse_error_located (path : String) (stream : List String) (e : PyErr)
    (h : HypoParser_parse path stream = .error e) :
    ∃ msg, e = .parseExc msg ∧ HasLoc path msg := by
  rw [HypoParser_parse] at h
  have hinv0 : StInv path (initState HypoParser_values) := by
    refine ⟨⟨?_, ?_, ?_⟩, ?_⟩
    · intro c hc0; cases hc0
    · intro habs; exact habs
    · intro habs; exact habs
    · intro d hd; cases hd
  rcases hpl : parseLines path (initState HypoParser_values) 0 stream with e0 | st1
  · rw [hpl, error_bind] at h
    cases h
    exact locParseErr_hasLoc
      ((parseLines_spec stream (initState HypoParser_values) 0 hinv0).1 _ hpl)
  · rw [hpl, ok_bind] at h
    exact locParseErr_hasLoc (parseFinish_spec st1
      ((parseLines_spec stream (initState HypoParser_values) 0 hinv0).2 st1 hpl) e h)

/-- C2 witness: the concrete failing parse of the unknown directive line
`%bogus` surfaces a located `ParseException` on `f.hypo:1`. -/
theorem parse_error_located_witness :
    ∃ msg, PyErr.parseExc "Invalid directive at f.hypo:1" = .parseExc msg ∧
      HasLoc "f.hypo" msg := by
  refine parse_error_located "f.hypo" ["%bogus\n"] _ ?_
  have h1 : stripComments ("%bogus\n" : String).toList = .done ("%bogus\n" : String).toList :=
    stripComments_no_marker (by decide)
  simp only [HypoParser_parse, parseLines, parse_line, parse_directive, contLine, initState,
    HypoParser_values, parse_directive_rest, h1]
  rfl

/-- C2, counterexample to the original claim: rendering a section whose
body references the substitution variable `v` with no binding for `v`
raises a bare `KeyError` naming only the variable — not the single
parse/validation-failure kind, and with no `file:line` location in its
message. -/
theorem section_render_unbound_var :
    TmplSection.render ⟨⟨"t.tmpl", 1, 1⟩, "sec", [], [⟨none, "\x7b\x7bv\x7d\x7d"⟩]⟩ [] =
      .error (.keyError "v") ∧
    (PyErr.keyError "v").isParseExc = false := by
  constructor
  · have hsub : substLine [] ("\x7b\x7bv\x7d\x7d" : String).toList = .error (.keyError "v") := by
      have hl : ("\x7b\x7bv\x7d\x7d" : String).toList = ['{', '{', 'v', '}', '}'] := rfl
      rw [hl, substLine]
      split
      next ident rest heq =>
        have hme : matchExpando ['{', '{', 'v', '}', '}'] = some ("v", []) := rfl
        rw [hme] at heq
        cases heq
        rfl
      next heq =>
        have hme : matchExpando ['{', '{', 'v', '}', '}'] = some ("v", []) := rfl
        rw [hme] at heq
        cases heq
    have hre : renderEntry [] ⟨none, "\x7b\x7bv\x7d\x7d"⟩ = .error (.keyError "v") := by
      rw [renderEntry]
      rw [if_neg (by decide)]
      rw [hsub, error_bind]
    rw [TmplSection.render]
    rw [if_neg (by decide)]
    simp only [List.mapM, List.mapM.loop, hre, error_bind]
  · rfl

end Hypocrite
